import Mathlib

/-!
Verification of the xsharp compiler (`main.go`): a regex-based lexer,
a recursive-descent parser and a C code generator, shallowly embedded.

The lexer models Go's `regexp` leftmost-first alternation over the ordered
`tokenSpecs` list: at every position the first category (in declaration
order) whose pattern matches wins, and each category matches greedily.
The parser models the `Parser` methods with an explicit cursor; Go's
`panic` inside `consume`/`parseExpression` becomes an error value, and a
direct out-of-range slice index becomes the distinguished error `oob`.
The code generator threads the `CodeGenerator` builder state (accumulated
output and current indent string) explicitly.
-/

namespace XSharp

/-- Token struct from `main.go`: type, value and location. -/
structure Token where
  type : String
  value : String
  line : Nat
  column : Nat
  deriving DecidableEq, Repr

/-- LexError carries the offending text and its 1-based line / 0-based column,
mirroring the fields interpolated into the Go `fmt.Errorf` message. -/
structure LexError where
  value : String
  line : Nat
  col : Nat
  deriving DecidableEq, Repr

/-- The single-character operator set of the `OP` spec `[+\-*/=<>!]`. -/
def opChars : List Char := ['+', '-', '*', '/', '=', '<', '>', '!']

/-- First character of the `ID` spec `[A-Za-z_][A-Za-z0-9_]*`. -/
def isIdStart (c : Char) : Bool := c.isAlpha || c = '_'

/-- Continuation characters of the `ID` spec. -/
def isIdChar (c : Char) : Bool := c.isAlpha || c.isDigit || c = '_'

/-- Space or tab, the `SKIP` spec `[ \t]+`. -/
def isSpaceTab (c : Char) : Bool := c = ' ' || c = '\t'

/-- Greedily split off a run of decimal digits (the `\d+` / `\d*` pieces). -/
def takeDigits : List Char → List Char × List Char
  | [] => ([], [])
  | c :: cs =>
    if c.isDigit then ((c :: (takeDigits cs).1), (takeDigits cs).2)
    else ([], c :: cs)

/-- Greedily split off a run of identifier characters. -/
def takeIdChars : List Char → List Char × List Char
  | [] => ([], [])
  | c :: cs =>
    if isIdChar c then ((c :: (takeIdChars cs).1), (takeIdChars cs).2)
    else ([], c :: cs)

/-- Greedily split off a run of spaces and tabs. -/
def takeSpaces : List Char → List Char × List Char
  | [] => ([], [])
  | c :: cs =>
    if isSpaceTab c then ((c :: (takeSpaces cs).1), (takeSpaces cs).2)
    else ([], c :: cs)

/-- The `NUMBER` spec `\d+(\.\d*)?` matched greedily, `c` being the first
digit: all following digits, then optionally a dot and more digits. -/
def matchNumber (c : Char) (cs : List Char) : List Char × List Char :=
  let p := takeDigits cs
  match p.2 with
  | '.' :: r2 =>
    let q := takeDigits r2
    (c :: p.1 ++ '.' :: q.1, q.2)
  | _ => (c :: p.1, p.2)

/-- The body of the `STRING` spec `"([^"\\]|\\.)*"` after the opening quote:
each step consumes either a non-quote non-backslash character (including a
raw newline, which the negated class matches) or a backslash escape `\\.`
(whose second character may not be a newline, since `.` excludes it), until
the closing quote.  Returns the consumed characters (closing quote included)
and the remainder, or `none` when no well-formed tail exists, in which case
the whole `STRING` alternative fails at this position. -/
def strScan : List Char → Option (List Char × List Char)
  | [] => none
  | c :: r =>
    if c = '"' then some ([c], r)
    else if c = '\\' then
      match r with
      | [] => none
      | d :: r2 =>
        if d = '\n' then none
        else
          match strScan r2 with
          | some (l, rest) => some (c :: d :: l, rest)
          | none => none
    else
      match strScan r with
      | some (l, rest) => some (c :: l, rest)
      | none => none

/-- One step of the combined regex of `tokenSpecs` at a position whose first
character is `c`: Go's `regexp` alternation is leftmost-first, so the specs
are tried in declaration order (`NUMBER, STRING, ID, OP, LPAREN, RPAREN,
LBRACE, RBRACE, LANGLE, RANGLE, COLON, SEMICOLON, COMMA, NEWLINE, SKIP,
MISMATCH`) and the first one whose pattern matches here wins.  When the
`STRING` pattern fails on an opening quote, no later category other than
the `MISMATCH` catch-all can match `"`.  Returns the winning alternative's
spec name, the matched text and the rest of the input.  This models only
the regex match itself; the token type the program then derives from the
submatch indices is `groupLabel` below, which is NOT the winning spec's
own name. -/
def nextMatch (c : Char) (cs : List Char) : String × List Char × List Char :=
  if c.isDigit then ("NUMBER", (matchNumber c cs).1, (matchNumber c cs).2)
  else if c = '"' then
    match strScan cs with
    | some (body, r) => ("STRING", c :: body, r)
    | none => ("MISMATCH", [c], cs)
  else if isIdStart c then ("ID", c :: (takeIdChars cs).1, (takeIdChars cs).2)
  else if opChars.contains c then ("OP", [c], cs)
  else if c = '(' then ("LPAREN", [c], cs)
  else if c = ')' then ("RPAREN", [c], cs)
  else if c = '\x7b' then ("LBRACE", [c], cs)
  else if c = '\x7d' then ("RBRACE", [c], cs)
  else if c = '<' then ("LANGLE", [c], cs)
  else if c = '>' then ("RANGLE", [c], cs)
  else if c = ':' then ("COLON", [c], cs)
  else if c = ';' then ("SEMICOLON", [c], cs)
  else if c = ',' then ("COMMA", [c], cs)
  else if c = '\n' then ("NEWLINE", [c], cs)
  else if isSpaceTab c then ("SKIP", c :: (takeSpaces cs).1, (takeSpaces cs).2)
  else ("MISMATCH", [c], cs)

/-- The token type the classification loop at `main.go:73-80` computes for a
match won by the given spec.  The loop reads `match[2*(i+1)]` for spec `i`,
i.e. capture group `i+1`; but the combined pattern has 18 groups, not 16,
because the `NUMBER` regex `\d+(\.\d*)?` and the `STRING` regex
`"([^"\\]|\\.)*"` each contain one inner parenthesised group (groups 2
and 4).  Group numbers by opening parenthesis: NUMBER=1, (inner)=2,
STRING=3, (inner)=4, ID=5, OP=6, LPAREN=7, RPAREN=8, LBRACE=9, RBRACE=10,
LANGLE=11, RANGLE=12, COLON=13, SEMICOLON=14, COMMA=15, NEWLINE=16,
SKIP=17, MISMATCH=18.  Only the winning alternative's groups participate
in a match, so the first `i` with group `i+1` set is: for a NUMBER win
group 1 at `i=0` (type `NUMBER`, the only correct case — the inner group 2
is reached only after group 1, so it never decides); for a STRING win
group 3 at `i=2` (type `ID`); for an ID win group 5 at `i=4` (type
`LPAREN`); and so on, each later spec's type shifted onto the previous
spec's match.  Groups 17 and 18 (`SKIP`, `MISMATCH`) are beyond the 16
indices the loop reads, so those matches leave `tokType` as the empty
string and fall into the `default` branch of the switch. -/
def groupLabel : String → String
  | "NUMBER" => "NUMBER"
  | "STRING" => "ID"
  | "ID" => "LPAREN"
  | "OP" => "RPAREN"
  | "LPAREN" => "LBRACE"
  | "RPAREN" => "RBRACE"
  | "LBRACE" => "LANGLE"
  | "RBRACE" => "RANGLE"
  | "LANGLE" => "COLON"
  | "RANGLE" => "SEMICOLON"
  | "COLON" => "COMMA"
  | "SEMICOLON" => "NEWLINE"
  | "COMMA" => "SKIP"
  | "NEWLINE" => "MISMATCH"
  | _ => ""

/-- The full non-overlapping match sequence of the combined regex
(`regex.FindAllStringSubmatchIndex(code, -1)`) as (spec name, text) pairs.
Every character is matched by some category, so the matches tile the input;
`fuel` bounds the recursion and `l.length` of fuel always suffices. -/
def matchesAux : Nat → List Char → Option (List (String × List Char))
  | _, [] => some []
  | 0, _ :: _ => none
  | fuel + 1, c :: cs =>
    match matchesAux fuel (nextMatch c cs).2.2 with
    | some ms => some (((nextMatch c cs).1, (nextMatch c cs).2.1) :: ms)
    | none => none

/-- The match sequence of an input. -/
def matchesOf (l : List Char) : List (String × List Char) :=
  (matchesAux l.length l).getD []

/-- The match-processing loop of `tokenize`: the switch runs on the type
`tokType` that the misindexed group scan computes (`groupLabel` of the
winning spec), not on the winning spec itself.  So the `SKIP` branch
(discard) fires on COMMA matches, the `NEWLINE` branch (line increment,
column origin reset) fires on SEMICOLON matches, the `MISMATCH` branch
(abort with a `LexError`) fires on NEWLINE matches, and every other match
— including whitespace runs and catch-all characters, whose `tokType` is
the empty string — becomes a token carrying `tokType`.  A synthetic `EOF`
token at column 0 terminates the output.  The column counter carries
`fullStart - lineStart` of the Go code: the number of characters consumed
since the end of the last match that took the `NEWLINE` branch. -/
def tokenizeAux : Nat → List Char → Nat → Nat → Option (Except LexError (List Token))
  | _, [], line, _ => some (.ok [⟨"EOF", "", line, 0⟩])
  | 0, _ :: _, _, _ => none
  | fuel + 1, c :: cs, line, col =>
    let k := (nextMatch c cs).1
    let lex := (nextMatch c cs).2.1
    let r := (nextMatch c cs).2.2
    let tokType := groupLabel k
    if tokType = "SKIP" then tokenizeAux fuel r line (col + lex.length)
    else if tokType = "NEWLINE" then tokenizeAux fuel r (line + 1) 0
    else if tokType = "MISMATCH" then some (.error ⟨String.mk lex, line, col⟩)
    else
      match tokenizeAux fuel r line (col + lex.length) with
      | some (.ok ts) => some (.ok (⟨tokType, String.mk lex, line, col⟩ :: ts))
      | some (.error e) => some (.error e)
      | none => none

/-- Tokenizing a character list; the default is never reached because
`l.length` of fuel always suffices. -/
def tokenizeL (l : List Char) : Except LexError (List Token) :=
  (tokenizeAux l.length l 1 0).getD (.error ⟨"", 0, 0⟩)

/-- The function `tokenize` from `main.go`. -/
def tokenize (s : String) : Except LexError (List Token) :=
  tokenizeL s.data

/-- Specification-level reprocessing of a match list, used to relate
`tokenize` to `matchesOf`. -/
def processMatches : List (String × List Char) → Nat → Nat → Except LexError (List Token)
  | [], line, _ => .ok [⟨"EOF", "", line, 0⟩]
  | (k, lex) :: ms, line, col =>
    if groupLabel k = "SKIP" then processMatches ms line (col + lex.length)
    else if groupLabel k = "NEWLINE" then processMatches ms (line + 1) 0
    else if groupLabel k = "MISMATCH" then .error ⟨String.mk lex, line, col⟩
    else
      match processMatches ms line (col + lex.length) with
      | .ok ts => .ok (⟨groupLabel k, String.mk lex, line, col⟩ :: ts)
      | .error e => .error e

/-- Concatenation of the matched texts of a match list. -/
def flatLex (ms : List (String × List Char)) : List Char :=
  ms.foldr (fun m acc => m.2 ++ acc) []

/-- A match kept in the token output: its computed type is neither `SKIP`
(COMMA matches) nor `NEWLINE` (SEMICOLON matches). -/
def keepMatch (m : String × List Char) : Bool :=
  !(groupLabel m.1 == "SKIP") && !(groupLabel m.1 == "NEWLINE")

/-- Number of matches taking the line-increment branch, i.e. whose computed
type is `NEWLINE` — these are the SEMICOLON matches. -/
def countLineIncr (ms : List (String × List Char)) : Nat :=
  ms.countP (fun m => groupLabel m.1 == "NEWLINE")

/-- Total length of the matched texts: the absolute input offset just after
these matches, since consecutive matches tile the input. -/
def sumLen (ms : List (String × List Char)) : Nat :=
  (ms.map (fun m => m.2.length)).sum

/-- The trailing matches after the last match whose computed type is
`NEWLINE` (a SEMICOLON match) — all of them when none occurred. -/
def tailRun (ms : List (String × List Char)) : List (String × List Char) :=
  ms.reverse.takeWhile (fun m => !(groupLabel m.1 == "NEWLINE"))

/-- The absolute offset of the most recent line start before the end of the
match list `ms`: the offset just after the last match that took the
line-increment branch, or 0. -/
def lineStartOff (ms : List (String × List Char)) : Nat :=
  sumLen ms - sumLen (tailRun ms)

/-- The running line of the Go loop after processing the matches `ms`. -/
def lineAfter (line : Nat) : List (String × List Char) → Nat
  | [] => line
  | (k, _) :: ms => lineAfter (if groupLabel k = "NEWLINE" then line + 1 else line) ms

/-- The running column counter of the Go loop (offset minus `lineStart`)
after processing the matches `ms`. -/
def colAfter (col : Nat) : List (String × List Char) → Nat
  | [] => col
  | (k, lex) :: ms =>
    colAfter (if groupLabel k = "NEWLINE" then 0 else col + lex.length) ms

/-!  ## Abstract syntax tree

Go's `Node` is the empty interface; the embedding closes it over the shapes
the compiler ever inspects, plus `other` for a value of any shape outside
them (all such values behave identically, since the code only inspects
nodes through type switches on the known shapes).
-/

/-- Function parameter. -/
structure Param where
  type : String
  name : String
  deriving DecidableEq, Repr

/-- A literal expression (number, string or identifier text). -/
structure Expression where
  value : String
  deriving DecidableEq, Repr

/-- AST nodes: `FunctionDecl`, `ClassDecl`, `VarDecl`, `Statement`, and a
stand-in for any value outside the known shapes. -/
inductive Node where
  | functionDecl (retType : String) (name : String) (params : List Param) (body : List Node)
  | classDecl (name : String) (parent : String) (members : List Node)
  | varDecl (varType : String) (name : String) (default : Expression)
  | stmt (expr : Expression)
  | other
  deriving Repr

/-- Program root node. -/
structure Program where
  declarations : List Node
  deriving Repr

/-!  ## Parser -/

/-- Parser faults: `fault` is the `panic` in `consume` (expected kinds plus
the offending token), `exprFault` the `panic` in `parseExpression`; `oob`
models an out-of-range token index, and `nofuel` is an artifact of the
embedding's recursion bound, proven unreachable below. -/
inductive ParseError where
  | oob : ParseError
  | nofuel : ParseError
  | fault (expected : List String) (got : Token) : ParseError
  | exprFault (got : Token) : ParseError
  deriving DecidableEq, Repr

/-- Results of a parsing step: a value plus the new cursor position. -/
abbrev PRes (α : Type) := Except ParseError (α × Nat)

/-- The method `current()`: read the token at the cursor. -/
def getTok (ts : List Token) (pos : Nat) : Except ParseError Token :=
  match ts.get? pos with
  | some t => .ok t
  | none => .error .oob

/-- The method `consume(expected...)`: read the current token, check it against the
expected type names or literal values if any were given, advance by one. -/
def consume (ts : List Token) (pos : Nat) (expected : List String) : PRes Token :=
  match getTok ts pos with
  | .error e => .error e
  | .ok tok =>
    if expected.isEmpty then .ok (tok, pos + 1)
    else if expected.any (fun e => tok.type == e || tok.value == e) then .ok (tok, pos + 1)
    else .error (.fault expected tok)

/-- The method `parseExpression`: consume one token; accept NUMBER, STRING or ID. -/
def parseExpression (ts : List Token) (pos : Nat) : PRes Expression :=
  match consume ts pos [] with
  | .error e => .error e
  | .ok (tok, p1) =>
    if tok.type = "NUMBER" || tok.type = "STRING" || tok.type = "ID" then
      .ok (⟨tok.value⟩, p1)
    else .error (.exprFault tok)

/-- The expression-statement tail of `parseStatement`: `Expression ';'`. -/
def parseExprStatement (ts : List Token) (pos : Nat) : PRes Node :=
  match parseExpression ts pos with
  | .error e => .error e
  | .ok (e, p1) =>
    match consume ts p1 ["SEMICOLON"] with
    | .error e => .error e
    | .ok (_, p2) => .ok (.stmt e, p2)

/-- The method `parseStatement`: two IDs in a row begin a variable declaration
`ID ID ('=' Expression)? ';'`; anything else is an expression statement.
The `p.tokens[p.pos+1]` lookahead is read only when the current token is
an ID, matching the short-circuit `&&` in the Go code. -/
def parseStatement (ts : List Token) (pos : Nat) : PRes Node :=
  match getTok ts pos with
  | .error e => .error e
  | .ok cur =>
    if cur.type = "ID" then
      match getTok ts (pos + 1) with
      | .error e => .error e
      | .ok nxt =>
        if nxt.type = "ID" then
          match consume ts pos ["ID"] with
          | .error e => .error e
          | .ok (tyTok, p1) =>
            match consume ts p1 ["ID"] with
            | .error e => .error e
            | .ok (nmTok, p2) =>
              match getTok ts p2 with
              | .error e => .error e
              | .ok cur2 =>
                if cur2.value = "=" then
                  match consume ts p2 ["OP"] with
                  | .error e => .error e
                  | .ok (_, p3) =>
                    match parseExpression ts p3 with
                    | .error e => .error e
                    | .ok (defE, p4) =>
                      match consume ts p4 ["SEMICOLON"] with
                      | .error e => .error e
                      | .ok (_, p5) => .ok (.varDecl tyTok.value nmTok.value defE, p5)
                else
                  match consume ts p2 ["SEMICOLON"] with
                  | .error e => .error e
                  | .ok (_, p3) => .ok (.varDecl tyTok.value nmTok.value ⟨""⟩, p3)
        else parseExprStatement ts pos
    else parseExprStatement ts pos

/-- The parameter loop of `parseParams` (at least one parameter present). -/
def parseParamsLoop (ts : List Token) : Nat → Nat → List Param → PRes (List Param)
  | 0, _, _ => .error .nofuel
  | fuel + 1, pos, acc =>
    match consume ts pos ["ID"] with
    | .error e => .error e
    | .ok (tyTok, p1) =>
      match consume ts p1 ["ID"] with
      | .error e => .error e
      | .ok (nmTok, p2) =>
        match getTok ts p2 with
        | .error e => .error e
        | .ok cur =>
          if cur.type = "COMMA" then
            match consume ts p2 ["COMMA"] with
            | .error e => .error e
            | .ok (_, p3) => parseParamsLoop ts fuel p3 (acc ++ [⟨tyTok.value, nmTok.value⟩])
          else .ok (acc ++ [⟨tyTok.value, nmTok.value⟩], p2)

/-- The method `parseParams`: empty when the cursor sits on RPAREN, else the loop. -/
def parseParams (ts : List Token) (fuel pos : Nat) : PRes (List Param) :=
  match getTok ts pos with
  | .error e => .error e
  | .ok cur =>
    if cur.type = "RPAREN" then .ok ([], pos)
    else parseParamsLoop ts fuel pos []

/-- The statement loop of `parseBlock`: statements until RBRACE. -/
def parseBlockLoop (ts : List Token) : Nat → Nat → List Node → PRes (List Node)
  | 0, _, _ => .error .nofuel
  | fuel + 1, pos, acc =>
    match getTok ts pos with
    | .error e => .error e
    | .ok cur =>
      if cur.type = "RBRACE" then .ok (acc, pos)
      else
        match parseStatement ts pos with
        | .error e => .error e
        | .ok (st, p1) => parseBlockLoop ts fuel p1 (acc ++ [st])

/-- The method `parseBlock`: a brace-enclosed statement list. -/
def parseBlock (ts : List Token) (fuel pos : Nat) : PRes (List Node) :=
  match consume ts pos ["LBRACE"] with
  | .error e => .error e
  | .ok (_, p1) =>
    match parseBlockLoop ts fuel p1 [] with
    | .error e => .error e
    | .ok (stmts, p2) =>
      match consume ts p2 ["RBRACE"] with
      | .error e => .error e
      | .ok (_, p3) => .ok (stmts, p3)

/-- The method `parseFunction`: `ID ID '(' Params? ')' Block`. -/
def parseFunction (ts : List Token) (fuel pos : Nat) : PRes Node :=
  match consume ts pos ["ID"] with
  | .error e => .error e
  | .ok (rt, p1) =>
    match consume ts p1 ["ID"] with
    | .error e => .error e
    | .ok (nm, p2) =>
      match consume ts p2 ["LPAREN"] with
      | .error e => .error e
      | .ok (_, p3) =>
        match parseParams ts fuel p3 with
        | .error e => .error e
        | .ok (ps, p4) =>
          match consume ts p4 ["RPAREN"] with
          | .error e => .error e
          | .ok (_, p5) =>
            match parseBlock ts fuel p5 with
            | .error e => .error e
            | .ok (body, p6) => .ok (.functionDecl rt.value nm.value ps body, p6)

/-- The method `parseClass`: `'class' ID (':' ID)? Block`; the body is a `parseBlock`,
so members come from `parseStatement`. -/
def parseClass (ts : List Token) (fuel pos : Nat) : PRes Node :=
  match consume ts pos ["ID"] with
  | .error e => .error e
  | .ok (_, p1) =>
    match consume ts p1 ["ID"] with
    | .error e => .error e
    | .ok (nm, p2) =>
      match getTok ts p2 with
      | .error e => .error e
      | .ok cur =>
        if cur.type = "COLON" then
          match consume ts p2 ["COLON"] with
          | .error e => .error e
          | .ok (_, p3) =>
            match consume ts p3 ["ID"] with
            | .error e => .error e
            | .ok (par, p4) =>
              match parseBlock ts fuel p4 with
              | .error e => .error e
              | .ok (mems, p5) => .ok (.classDecl nm.value par.value mems, p5)
        else
          match parseBlock ts fuel p2 with
          | .error e => .error e
          | .ok (mems, p3) => .ok (.classDecl nm.value ("") mems, p3)

/-- The declaration loop of `parse`: until EOF, dispatch on the literal
token text `class`. -/
def parseProgramLoop (ts : List Token) : Nat → Nat → List Node → PRes (List Node)
  | 0, _, _ => .error .nofuel
  | fuel + 1, pos, acc =>
    match getTok ts pos with
    | .error e => .error e
    | .ok cur =>
      if cur.type = "EOF" then .ok (acc, pos)
      else
        match (if cur.value = "class" then parseClass ts fuel pos else parseFunction ts fuel pos) with
        | .error e => .error e
        | .ok (d, p1) => parseProgramLoop ts fuel p1 (acc ++ [d])

/-- The method `parse` from `main.go`, on a token list.  The fuel `ts.length + 1`
is enough for every loop, as the loops advance the cursor each iteration. -/
def parseTokens (ts : List Token) : Except ParseError Program :=
  match parseProgramLoop ts (ts.length + 1) 0 [] with
  | .ok (ds, _) => .ok ⟨ds⟩
  | .error e => .error e

/-!  ## Code generator -/

/-- The mutable fields of Go's `CodeGenerator`: the accumulated output and
the current indent string. -/
structure CG where
  code : String
  indent : String
  deriving Repr

/-- The fixed prelude written by `emitIncludes`. -/
def includesText : String :=
  "#include <stdio.h>\n#include <stdlib.h>\n#include <string.h>\n\n"

/-- The method `emitStatement`: a `VarDecl` emits `type name [= default];`, a
`Statement` emits its literal text plus `;`, anything else emits the
placeholder comment.  (The Go number-or-string test around the default
value appends the same text in both branches.) -/
def emitStatementCG (cg : CG) (stmt : Node) : CG :=
  match stmt with
  | .varDecl ty nm de =>
    let line := cg.indent ++ ty ++ " " ++ nm
    let line := if de.value ≠ "" then line ++ " = " ++ de.value else line
    { cg with code := cg.code ++ line ++ ";\n" }
  | .stmt e => { cg with code := cg.code ++ cg.indent ++ e.value ++ ";\n" }
  | _ => { cg with code := cg.code ++ cg.indent ++ "// Unknown statement\n" }

/-- The method `emitFunction`: signature with a comma-joined `type name` parameter
list, the body at one indent unit, closing brace and a blank line. -/
def emitFunctionCG (cg : CG) (rt nm : String) (ps : List Param) (body : List Node) : CG :=
  let paramStr := String.intercalate (", ") (ps.map (fun p => p.type ++ " " ++ p.name))
  let cg1 : CG := { cg with code := cg.code ++ rt ++ " " ++ nm ++ "(" ++ paramStr ++ ") \x7b\n" }
  let cg2 : CG := { cg1 with indent := "    " }
  let cg3 := body.foldl emitStatementCG cg2
  { cg3 with code := cg3.code ++ "\x7d\n\n" }

/-- One member of the struct-field loop in `emitClass`: only `VarDecl`
members contribute a field line. -/
def emitClassField (acc : CG) (m : Node) : CG :=
  match m with
  | .varDecl ty vn _ => { acc with code := acc.code ++ "    " ++ ty ++ " " ++ vn ++ ";\n" }
  | _ => acc

/-- One member of the method loop in `emitClass`: only `FunctionDecl`
members emit a free function whose first parameter is `Name* this`. -/
def emitClassMethod (nm : String) (acc : CG) (m : Node) : CG :=
  match m with
  | .functionDecl rt fn fps fbody =>
    let params := (nm ++ "* this") :: fps.map (fun p => p.type ++ " " ++ p.name)
    let acc1 : CG := { acc with code :=
      acc.code ++ rt ++ " " ++ nm ++ "_" ++ fn ++ "(" ++ String.intercalate (", ") params ++ ") \x7b\n" }
    let acc2 : CG := { acc1 with indent := "    " }
    let acc3 := fbody.foldl emitStatementCG acc2
    { acc3 with code := acc3.code ++ "\x7d\n\n" }
  | _ => acc

/-- The method `emitClass`: a `typedef struct` with one field per `VarDecl` member,
then one free function `Name_method` per `FunctionDecl` member. -/
def emitClassCG (cg : CG) (nm : String) (mems : List Node) : CG :=
  let cg1 : CG := { cg with code := cg.code ++ "typedef struct " ++ nm ++ " \x7b\n" }
  let cg2 := mems.foldl emitClassField cg1
  let cg3 : CG := { cg2 with code := cg2.code ++ "\x7d " ++ nm ++ ";\n\n" }
  mems.foldl (emitClassMethod nm) cg3

/-- One top-level declaration inside `generate`'s loop: `FunctionDecl` and
`ClassDecl` are emitted, any other declaration is skipped silently. -/
def generateStep (cg : CG) (d : Node) : CG :=
  match d with
  | .functionDecl rt nm ps body => emitFunctionCG cg rt nm ps body
  | .classDecl nm _ mems => emitClassCG cg nm mems
  | _ => cg

/-- The method `generate`: the includes prelude, then every top-level declaration. -/
def generate (p : Program) : String :=
  (p.declarations.foldl generateStep ⟨includesText, ""⟩).code

/-!  ## Whole pipeline -/

/-- A compilation fault: lexing or parsing. -/
inductive CompileError where
  | lex (e : LexError) : CompileError
  | parse (e : ParseError) : CompileError
  deriving DecidableEq, Repr

/-- Lexing followed by parsing. -/
def parseSource (s : String) : Except CompileError Program :=
  match tokenize s with
  | .error e => .error (.lex e)
  | .ok ts =>
    match parseTokens ts with
    | .error e => .error (.parse e)
    | .ok prog => .ok prog

/-- The full pipeline of `main`: tokenize, parse, generate. -/
def compile (s : String) : Except CompileError String :=
  match parseSource s with
  | .error e => .error e
  | .ok prog => .ok (generate prog)

/-!  ## Predicates used in the claims -/

/-- A node a class body produced by the parser may contain: a variable
declaration or an expression statement. -/
def isFieldOrStmt : Node → Bool
  | .varDecl .. => true
  | .stmt .. => true
  | _ => false

/-- Whether a node is an expression statement. -/
def isExprStatement : Node → Bool
  | .stmt _ => true
  | _ => false

/-- A top-level declaration whose class members, if any, are all
variable declarations or expression statements. -/
def topDeclOk : Node → Bool
  | .classDecl _ _ mems => mems.all isFieldOrStmt
  | _ => true

/-- Every class declaration of the program has only variable-declaration or
expression-statement members (so `emitClass`'s method branch never fires). -/
def classMembersOk (p : Program) : Bool :=
  p.declarations.all topDeclOk

/-- A token list shaped like the lexer's output: a single `EOF` token at
the end and nowhere else. -/
def goodTokens (ts : List Token) : Prop :=
  ∃ front line, ts = front ++ [⟨"EOF", "", line, 0⟩] ∧ ∀ t ∈ front, t.type ≠ "EOF"

/-- A parser result that aborted, if at all, only through the explicit
expectation faults — never through an out-of-range token access and never
through the embedding's recursion bound. -/
def errOk : Except ParseError α → Prop
  | .error e => e ≠ .oob ∧ e ≠ .nofuel
  | .ok _ => True

/-- List containment of a contiguous pattern, used to state that the
placeholder comment does not occur in an output. -/
def listStarts : List Char → List Char → Bool
  | [], _ => true
  | _ :: _, [] => false
  | p :: ps, c :: cs => p == c && listStarts ps cs

/-- Whether `pat` occurs contiguously anywhere in the list. -/
def subOccurs (pat : List Char) : List Char → Bool
  | [] => pat.isEmpty
  | c :: cs => listStarts pat (c :: cs) || subOccurs pat cs

/-- The categories that can actually win a match: all spec names except
`LANGLE` and `RANGLE` (shadowed by the earlier `OP` category). -/
def specKinds : List String :=
  ["NUMBER", "STRING", "ID", "OP", "LPAREN", "RPAREN", "LBRACE",
   "RBRACE", "COLON", "SEMICOLON", "COMMA", "NEWLINE", "SKIP", "MISMATCH"]

/-!  ## Lexer lemmas -/

theorem takeDigits_append (l : List Char) : (takeDigits l).1 ++ (takeDigits l).2 = l := by
  induction l with
  | nil => rfl
  | cons c cs ih =>
    simp only [takeDigits]
    split
    · simpa using ih
    · rfl

theorem takeIdChars_append (l : List Char) : (takeIdChars l).1 ++ (takeIdChars l).2 = l := by
  induction l with
  | nil => rfl
  | cons c cs ih =>
    simp only [takeIdChars]
    split
    · simpa using ih
    · rfl

theorem takeSpaces_append (l : List Char) : (takeSpaces l).1 ++ (takeSpaces l).2 = l := by
  induction l with
  | nil => rfl
  | cons c cs ih =>
    simp only [takeSpaces]
    split
    · simpa using ih
    · rfl

theorem matchNumber_append (c : Char) (cs : List Char) :
    (matchNumber c cs).1 ++ (matchNumber c cs).2 = c :: cs := by
  have h1 := takeDigits_append cs
  simp only [matchNumber]
  split
  · rename_i r2 heq
    have h2 := takeDigits_append r2
    rw [heq] at h1
    simp only [List.cons_append, List.append_assoc, List.cons_append, h2, h1]
  · simp only [List.cons_append, h1]

theorem matchNumber_cons (c : Char) (cs : List Char) :
    ∃ t, (matchNumber c cs).1 = c :: t := by
  simp only [matchNumber]
  split
  · exact ⟨_, List.cons_append _ _ _⟩
  · exact ⟨_, rfl⟩

theorem strScan_append_aux :
    ∀ n l b r, l.length ≤ n → strScan l = some (b, r) → b ++ r = l := by
  intro n
  induction n with
  | zero =>
    intro l b r hl h
    cases l with
    | nil => simp [strScan] at h
    | cons c cs => simp at hl
  | succ n ih =>
    intro l b r hl h
    cases l with
    | nil => simp [strScan] at h
    | cons c cs =>
      rw [strScan.eq_def] at h
      by_cases hc : c = '"'
      · simp only [if_pos hc, Option.some.injEq, Prod.mk.injEq] at h
        obtain ⟨hb, hr⟩ := h
        subst hb; subst hr; rfl
      · simp only [if_neg hc] at h
        by_cases hbs : c = '\\'
        · simp only [if_pos hbs] at h
          cases cs with
          | nil => simp at h
          | cons d r2 =>
            by_cases hd : d = '\n'
            · simp only [if_pos hd] at h
              exact absurd h (by simp)
            · simp only [if_neg hd] at h
              cases hscan : strScan r2 with
              | none => rw [hscan] at h; simp at h
              | some p =>
                obtain ⟨l0, rest⟩ := p
                rw [hscan] at h
                simp only [Option.some.injEq, Prod.mk.injEq] at h
                obtain ⟨hb, hr⟩ := h
                subst hb; subst hr
                have hlen : r2.length ≤ n := by
                  simp only [List.length_cons] at hl; omega
                have := ih r2 l0 rest hlen hscan
                simp [this]
        · simp only [if_neg hbs] at h
          cases hscan : strScan cs with
          | none => rw [hscan] at h; simp at h
          | some p =>
            obtain ⟨l0, rest⟩ := p
            rw [hscan] at h
            simp only [Option.some.injEq, Prod.mk.injEq] at h
            obtain ⟨hb, hr⟩ := h
            subst hb; subst hr
            have hlen : cs.length ≤ n := by
              simp only [List.length_cons] at hl; omega
            have := ih cs l0 rest hlen hscan
            simp [this]

theorem strScan_append (l b r : List Char) (h : strScan l = some (b, r)) :
    b ++ r = l :=
  strScan_append_aux l.length l b r (Nat.le_refl _) h

/-- Every match: the winning category's text starts at the scan position
with `c`, the text plus the remainder tile the scanned input, and the
winning category is never `LANGLE`, `RANGLE` or `EOF` — the `OP` category
is declared before the angle-bracket ones and its class contains both angle
characters, so with leftmost-first resolution those categories never win.
In addition, an `LBRACE` win is exactly the one-character text `{` and an
`RBRACE` win exactly `}`. -/
theorem nextMatch_master (c : Char) (cs : List Char) :
    ∃ k t r, nextMatch c cs = (k, c :: t, r) ∧ t ++ r = cs ∧ k ∈ specKinds ∧
      (k = "LBRACE" → c = '\x7b' ∧ t = []) ∧ (k = "RBRACE" → c = '\x7d' ∧ t = []) := by
  unfold specKinds
  unfold nextMatch
  by_cases h1 : c.isDigit = true
  · rw [if_pos h1]
    obtain ⟨t, ht⟩ := matchNumber_cons c cs
    have h := matchNumber_append c cs
    rw [ht] at h
    exact ⟨"NUMBER", t, (matchNumber c cs).2, by rw [ht], by simpa using h, by simp,
      fun hk => absurd hk (by decide), fun hk => absurd hk (by decide)⟩
  rw [if_neg h1]
  by_cases h2 : c = '"'
  · rw [if_pos h2]
    cases hscan : strScan cs with
    | some p =>
      obtain ⟨body, r⟩ := p
      exact ⟨"STRING", body, r, by simp [hscan], strScan_append cs body r hscan, by simp,
        fun hk => absurd hk (by decide), fun hk => absurd hk (by decide)⟩
    | none => exact ⟨"MISMATCH", [], cs, by simp [hscan], rfl, by simp,
        fun hk => absurd hk (by decide), fun hk => absurd hk (by decide)⟩
  rw [if_neg h2]
  by_cases h3 : isIdStart c = true
  · rw [if_pos h3]
    exact ⟨"ID", _, _, rfl, takeIdChars_append cs, by simp,
      fun hk => absurd hk (by decide), fun hk => absurd hk (by decide)⟩
  rw [if_neg h3]
  by_cases h4 : opChars.contains c = true
  · rw [if_pos h4]
    exact ⟨"OP", [], cs, rfl, rfl, by simp,
      fun hk => absurd hk (by decide), fun hk => absurd hk (by decide)⟩
  rw [if_neg h4]
  by_cases h5 : c = '('
  · rw [if_pos h5]
    exact ⟨"LPAREN", [], cs, rfl, rfl, by simp,
      fun hk => absurd hk (by decide), fun hk => absurd hk (by decide)⟩
  rw [if_neg h5]
  by_cases h6 : c = ')'
  · rw [if_pos h6]
    exact ⟨"RPAREN", [], cs, rfl, rfl, by simp,
      fun hk => absurd hk (by decide), fun hk => absurd hk (by decide)⟩
  rw [if_neg h6]
  by_cases h7 : c = '\x7b'
  · rw [if_pos h7]
    exact ⟨"LBRACE", [], cs, rfl, rfl, by simp,
      fun _ => ⟨h7, rfl⟩, fun hk => absurd hk (by decide)⟩
  rw [if_neg h7]
  by_cases h8 : c = '\x7d'
  · rw [if_pos h8]
    exact ⟨"RBRACE", [], cs, rfl, rfl, by simp,
      fun hk => absurd hk (by decide), fun _ => ⟨h8, rfl⟩⟩
  rw [if_neg h8]
  by_cases h9 : c = '<'
  · exact absurd (by rw [h9]; decide) h4
  rw [if_neg h9]
  by_cases h10 : c = '>'
  · exact absurd (by rw [h10]; decide) h4
  rw [if_neg h10]
  by_cases h11 : c = ':'
  · rw [if_pos h11]
    exact ⟨"COLON", [], cs, rfl, rfl, by simp,
      fun hk => absurd hk (by decide), fun hk => absurd hk (by decide)⟩
  rw [if_neg h11]
  by_cases h12 : c = ';'
  · rw [if_pos h12]
    exact ⟨"SEMICOLON", [], cs, rfl, rfl, by simp,
      fun hk => absurd hk (by decide), fun hk => absurd hk (by decide)⟩
  rw [if_neg h12]
  by_cases h13 : c = ','
  · rw [if_pos h13]
    exact ⟨"COMMA", [], cs, rfl, rfl, by simp,
      fun hk => absurd hk (by decide), fun hk => absurd hk (by decide)⟩
  rw [if_neg h13]
  by_cases h14 : c = '\n'
  · rw [if_pos h14]
    exact ⟨"NEWLINE", [], cs, rfl, rfl, by simp,
      fun hk => absurd hk (by decide), fun hk => absurd hk (by decide)⟩
  rw [if_neg h14]
  by_cases h15 : isSpaceTab c = true
  · rw [if_pos h15]
    exact ⟨"SKIP", _, _, rfl, takeSpaces_append cs, by simp,
      fun hk => absurd hk (by decide), fun hk => absurd hk (by decide)⟩
  rw [if_neg h15]
  exact ⟨"MISMATCH", [], cs, rfl, rfl, by simp,
    fun hk => absurd hk (by decide), fun hk => absurd hk (by decide)⟩

theorem matchesAux_some :
    ∀ fuel l, l.length ≤ fuel → ∃ ms, matchesAux fuel l = some ms := by
  intro fuel
  induction fuel with
  | zero =>
    intro l hl
    cases l with
    | nil => exact ⟨[], rfl⟩
    | cons c cs => simp at hl
  | succ f ih =>
    intro l hl
    cases l with
    | nil => exact ⟨[], rfl⟩
    | cons c cs =>
      obtain ⟨k, t, r, heq, happ, _⟩ := nextMatch_master c cs
      have hr : r.length ≤ f := by
        have := congrArg List.length happ
        simp only [List.length_append] at this
        simp only [List.length_cons] at hl
        omega
      obtain ⟨ms, hms⟩ := ih r hr
      refine ⟨(k, c :: t) :: ms, ?_⟩
      simp only [matchesAux, heq, hms]

theorem matchesAux_fuel :
    ∀ f1 f2 l, l.length ≤ f1 → l.length ≤ f2 → matchesAux f1 l = matchesAux f2 l := by
  intro f1
  induction f1 with
  | zero =>
    intro f2 l h1 h2
    cases l with
    | nil => cases f2 <;> rfl
    | cons c cs => simp at h1
  | succ f ih =>
    intro f2 l h1 h2
    cases l with
    | nil => cases f2 <;> rfl
    | cons c cs =>
      cases f2 with
      | zero => simp at h2
      | succ g =>
        obtain ⟨k, t, r, heq, happ, _⟩ := nextMatch_master c cs
        have hrcs : r.length ≤ cs.length := by
          have := congrArg List.length happ
          simp only [List.length_append] at this
          omega
        have e1 : r.length ≤ f := le_trans hrcs (by simpa using h1)
        have e2 : r.length ≤ g := le_trans hrcs (by simpa using h2)
        simp only [matchesAux, heq]
        rw [ih g r e1 e2]

theorem matchesOf_cons (c : Char) (cs : List Char) (k : String) (lex r : List Char)
    (heq : nextMatch c cs = (k, lex, r)) (hr : r.length ≤ cs.length) :
    matchesOf (c :: cs) = (k, lex) :: matchesOf r := by
  unfold matchesOf
  obtain ⟨ms, hms⟩ := matchesAux_some r.length r (Nat.le_refl _)
  have hms2 : matchesAux cs.length r = some ms := by
    rw [matchesAux_fuel cs.length r.length r hr (Nat.le_refl _)]
    exact hms
  simp only [List.length_cons, matchesAux, heq, hms2, hms]
  rfl

theorem flatLex_matchesOf :
    ∀ n l, l.length ≤ n → flatLex (matchesOf l) = l := by
  intro n
  induction n with
  | zero =>
    intro l hl
    cases l with
    | nil => rfl
    | cons c cs => simp at hl
  | succ f ih =>
    intro l hl
    cases l with
    | nil => rfl
    | cons c cs =>
      obtain ⟨k, t, r, heq, happ, _⟩ := nextMatch_master c cs
      have hrcs : r.length ≤ cs.length := by
        have := congrArg List.length happ
        simp only [List.length_append] at this
        omega
      rw [matchesOf_cons c cs k (c :: t) r heq hrcs]
      have hrec := ih r (le_trans hrcs (by simpa using hl))
      simp only [flatLex, List.foldr_cons] at hrec ⊢
      rw [hrec, List.cons_append, happ]

theorem matchesOf_kinds :
    ∀ n l, l.length ≤ n → ∀ m ∈ matchesOf l, m.1 ∈ specKinds := by
  intro n
  induction n with
  | zero =>
    intro l hl m hm
    cases l with
    | nil => simp [matchesOf, matchesAux] at hm
    | cons c cs => simp at hl
  | succ f ih =>
    intro l hl m hm
    cases l with
    | nil => simp [matchesOf, matchesAux] at hm
    | cons c cs =>
      obtain ⟨k, t, r, heq, happ, hker⟩ := nextMatch_master c cs
      have hrcs : r.length ≤ cs.length := by
        have := congrArg List.length happ
        simp only [List.length_append] at this
        omega
      rw [matchesOf_cons c cs k (c :: t) r heq hrcs] at hm
      rcases List.mem_cons.mp hm with h | h
      · subst h; exact hker.1
      · exact ih r (le_trans hrcs (by simpa using hl)) m h

theorem tokenizeAux_eq :
    ∀ fuel l line col, l.length ≤ fuel →
      tokenizeAux fuel l line col = some (processMatches (matchesOf l) line col) := by
  intro fuel
  induction fuel with
  | zero =>
    intro l line col hl
    cases l with
    | nil => rfl
    | cons c cs => simp at hl
  | succ f ih =>
    intro l line col hl
    cases l with
    | nil => rfl
    | cons c cs =>
      obtain ⟨k, t, r, heq, happ, _⟩ := nextMatch_master c cs
      have hrcs : r.length ≤ cs.length := by
        have := congrArg List.length happ
        simp only [List.length_append] at this
        omega
      have hrf : r.length ≤ f := le_trans hrcs (by simpa using hl)
      rw [matchesOf_cons c cs k (c :: t) r heq hrcs]
      simp only [tokenizeAux, heq, processMatches]
      by_cases hskip : groupLabel k = "SKIP"
      · simp only [if_pos hskip]
        exact ih r line (col + (c :: t).length) hrf
      · simp only [if_neg hskip]
        by_cases hnl : groupLabel k = "NEWLINE"
        · simp only [if_pos hnl]
          exact ih r (line + 1) 0 hrf
        · simp only [if_neg hnl]
          by_cases hmm : groupLabel k = "MISMATCH"
          · simp only [if_pos hmm]
          · simp only [if_neg hmm]
            rw [ih r line (col + (c :: t).length) hrf]
            cases processMatches (matchesOf r) line (col + (c :: t).length) with
            | ok ts => rfl
            | error e => rfl

theorem tokenizeL_eq (l : List Char) :
    tokenizeL l = processMatches (matchesOf l) 1 0 := by
  unfold tokenizeL
  rw [tokenizeAux_eq l.length l 1 0 (Nat.le_refl _)]
  rfl

theorem lineAfter_eq : ∀ pre line, lineAfter line pre = line + countLineIncr pre := by
  intro pre
  induction pre with
  | nil => intro line; simp [lineAfter, countLineIncr]
  | cons m ms ih =>
    intro line
    obtain ⟨k, lex⟩ := m
    simp only [lineAfter, countLineIncr, List.countP_cons] at ih ⊢
    rw [ih]
    by_cases h : groupLabel k = "NEWLINE"
    · simp [h]; omega
    · simp [h]

theorem sumLen_append (a b : List (String × List Char)) :
    sumLen (a ++ b) = sumLen a + sumLen b := by
  simp [sumLen]

theorem sumLen_reverse (a : List (String × List Char)) :
    sumLen a.reverse = sumLen a := by
  simp only [sumLen, List.map_reverse]
  exact List.sum_reverse _

theorem takeWhile_append_all {α : Type} (p : α → Bool) :
    ∀ (l1 l2 : List α), (∀ a ∈ l1, p a = true) →
      List.takeWhile p (l1 ++ l2) = l1 ++ List.takeWhile p l2 := by
  intro l1
  induction l1 with
  | nil => intro l2 h; rfl
  | cons a l1 ih =>
    intro l2 h
    have ha : p a = true := h a (by simp)
    simp only [List.cons_append, List.takeWhile_cons, ha, if_true]
    rw [ih l2 (fun x hx => h x (by simp [hx]))]

theorem takeWhile_append_stop {α : Type} (p : α → Bool) :
    ∀ (l1 l2 : List α), (∃ a ∈ l1, p a = false) →
      List.takeWhile p (l1 ++ l2) = List.takeWhile p l1 := by
  intro l1
  induction l1 with
  | nil => intro l2 h; simp at h
  | cons a l1 ih =>
    intro l2 h
    by_cases ha : p a = true
    · simp only [List.cons_append, List.takeWhile_cons, ha, if_true]
      obtain ⟨x, hx, hpx⟩ := h
      rcases List.mem_cons.mp hx with rfl | hx2
      · rw [ha] at hpx; exact absurd hpx (by simp)
      · rw [ih l2 ⟨x, hx2, hpx⟩]
    · have ha2 : p a = false := by
        cases hpa : p a
        · rfl
        · exact absurd hpa ha
      simp only [List.cons_append, List.takeWhile_cons, ha2]
      simp

theorem colAfter_eq :
    ∀ pre col, colAfter col pre =
      if pre.any (fun m => groupLabel m.1 == "NEWLINE") then sumLen (tailRun pre)
      else col + sumLen pre := by
  intro pre
  induction pre with
  | nil => intro col; simp [colAfter, sumLen]
  | cons m ms ih =>
    intro col
    obtain ⟨k, lex⟩ := m
    simp only [colAfter]
    by_cases hany : ms.any (fun m => groupLabel m.1 == "NEWLINE") = true
    · have htail : tailRun ((k, lex) :: ms) = tailRun ms := by
        unfold tailRun
        simp only [List.reverse_cons]
        apply takeWhile_append_stop
        obtain ⟨x, hx, hpx⟩ := List.any_eq_true.mp hany
        refine ⟨x, by simp [hx], ?_⟩
        simp only [Bool.not_eq_false']
        exact hpx
      rw [ih]
      simp only [hany, if_true, List.any_cons, Bool.or_true, htail]
    · have hanyf : ms.any (fun m => groupLabel m.1 == "NEWLINE") = false := by
        cases hx : ms.any (fun m => groupLabel m.1 == "NEWLINE")
        · rfl
        · exact absurd hx hany
      have hall : ∀ a ∈ ms.reverse, (fun m => !(groupLabel m.1 == "NEWLINE")) a = true := by
        intro a ha
        simp only [Bool.not_eq_true']
        by_contra hne
        have hmem : ms.any (fun m => groupLabel m.1 == "NEWLINE") = true :=
          List.any_eq_true.mpr ⟨a, List.mem_reverse.mp ha, by
            cases hx : (groupLabel a.1 == "NEWLINE")
            · exact absurd hx hne
            · rfl⟩
        exact hany hmem
      by_cases hk : groupLabel k = "NEWLINE"
      · have htail : tailRun ((k, lex) :: ms) = ms.reverse := by
          unfold tailRun
          simp only [List.reverse_cons]
          rw [takeWhile_append_all _ ms.reverse _ hall]
          simp [hk]
        rw [if_pos hk, ih 0]
        simp only [hanyf, List.any_cons, htail, sumLen_reverse]
        simp [hk]
      · rw [if_neg hk, ih (col + lex.length)]
        have htail : tailRun ((k, lex) :: ms) = ms.reverse ++ [(k, lex)] := by
          unfold tailRun
          simp only [List.reverse_cons]
          rw [takeWhile_append_all _ ms.reverse _ hall]
          simp [hk]
        have hkb : (groupLabel k == "NEWLINE") = false := by
          cases hx : (groupLabel k == "NEWLINE")
          · rfl
          · exact absurd (by simpa using hx) hk
        simp only [hanyf, List.any_cons, hkb, htail, sumLen_append, sumLen_reverse]
        simp only [Bool.false_or, if_neg (by simp : ¬(false = true))]
        simp [sumLen]
        omega

theorem processMatches_error :
    ∀ pre k0 v rest line col, groupLabel k0 = "MISMATCH" →
      (∀ m ∈ pre, groupLabel m.1 ≠ "MISMATCH") →
      processMatches (pre ++ (k0, v) :: rest) line col =
        .error ⟨String.mk v, lineAfter line pre, colAfter col pre⟩ := by
  intro pre
  induction pre with
  | nil =>
    intro k0 v rest line col hk0 _
    simp [processMatches, hk0, lineAfter, colAfter]
  | cons m ms ih =>
    intro k0 v rest line col hk0 hpre
    obtain ⟨k, lex⟩ := m
    have hk : groupLabel k ≠ "MISMATCH" := hpre (k, lex) (by simp)
    have hms : ∀ m ∈ ms, groupLabel m.1 ≠ "MISMATCH" := fun m hm => hpre m (by simp [hm])
    simp only [List.cons_append, processMatches, lineAfter, colAfter, List.append_eq]
    by_cases hskip : groupLabel k = "SKIP"
    · have hknl : groupLabel k ≠ "NEWLINE" := by rw [hskip]; decide
      simp only [if_pos hskip, if_neg hknl]
      exact ih k0 v rest line (col + lex.length) hk0 hms
    · simp only [if_neg hskip]
      by_cases hnl : groupLabel k = "NEWLINE"
      · simp only [if_pos hnl]
        exact ih k0 v rest (line + 1) 0 hk0 hms
      · simp only [if_neg hnl, if_neg hk]
        rw [ih k0 v rest line (col + lex.length) hk0 hms]

theorem processMatches_ok_exists :
    ∀ ms line col, (∀ m ∈ ms, groupLabel m.1 ≠ "MISMATCH") →
      ∃ ts, processMatches ms line col = .ok ts := by
  intro ms
  induction ms with
  | nil => intro line col _; exact ⟨_, rfl⟩
  | cons m ms ih =>
    intro line col h
    obtain ⟨k, lex⟩ := m
    have hk : groupLabel k ≠ "MISMATCH" := h (k, lex) (by simp)
    have hms : ∀ m ∈ ms, groupLabel m.1 ≠ "MISMATCH" := fun m hm => h m (by simp [hm])
    simp only [processMatches]
    by_cases hskip : groupLabel k = "SKIP"
    · simp only [if_pos hskip]
      exact ih line (col + lex.length) hms
    · simp only [if_neg hskip]
      by_cases hnl : groupLabel k = "NEWLINE"
      · simp only [if_pos hnl]
        exact ih (line + 1) 0 hms
      · simp only [if_neg hnl, if_neg hk]
        obtain ⟨ts, hts⟩ := ih line (col + lex.length) hms
        rw [hts]
        exact ⟨_, rfl⟩

theorem processMatches_ok_shape :
    ∀ ms line col ts, processMatches ms line col = .ok ts →
      ∃ front, ts = front ++ [⟨"EOF", "", lineAfter line ms, 0⟩] ∧
        front.map Token.type = (ms.filter keepMatch).map (fun m => groupLabel m.1) ∧
        front.map Token.value = (ms.filter keepMatch).map (fun m => String.mk m.2) ∧
        (∀ m ∈ ms, groupLabel m.1 ≠ "MISMATCH") := by
  intro ms
  induction ms with
  | nil =>
    intro line col ts h
    simp only [processMatches, Except.ok.injEq] at h
    exact ⟨[], by simp [← h, lineAfter], by simp, by simp, by simp⟩
  | cons m ms ih =>
    intro line col ts h
    obtain ⟨k, lex⟩ := m
    simp only [processMatches] at h
    by_cases hskip : groupLabel k = "SKIP"
    · rw [if_pos hskip] at h
      obtain ⟨front, h1, h2, h3, h4⟩ := ih line (col + lex.length) ts h
      refine ⟨front, ?_, ?_, ?_, ?_⟩
      · rw [h1]; simp [lineAfter, hskip]
      · rw [h2]; simp [keepMatch, hskip]
      · rw [h3]; simp [keepMatch, hskip]
      · intro m hm
        rcases List.mem_cons.mp hm with rfl | hm2
        · simp [hskip]
        · exact h4 m hm2
    · rw [if_neg hskip] at h
      by_cases hnl : groupLabel k = "NEWLINE"
      · rw [if_pos hnl] at h
        obtain ⟨front, h1, h2, h3, h4⟩ := ih (line + 1) 0 ts h
        refine ⟨front, ?_, ?_, ?_, ?_⟩
        · rw [h1]; simp [lineAfter, hnl]
        · rw [h2]; simp [keepMatch, hnl]
        · rw [h3]; simp [keepMatch, hnl]
        · intro m hm
          rcases List.mem_cons.mp hm with rfl | hm2
          · simp [hnl]
          · exact h4 m hm2
      · rw [if_neg hnl] at h
        by_cases hmm : groupLabel k = "MISMATCH"
        · rw [if_pos hmm] at h
          exact absurd h (by simp)
        · rw [if_neg hmm] at h
          cases hrec : processMatches ms line (col + lex.length) with
          | error e => rw [hrec] at h; exact absurd h (by simp)
          | ok ts2 =>
            rw [hrec] at h
            simp only [Except.ok.injEq] at h
            obtain ⟨front, h1, h2, h3, h4⟩ := ih line (col + lex.length) ts2 hrec
            have hkeep : keepMatch (k, lex) = true := by
              simp [keepMatch, hskip, hnl]
            refine ⟨⟨groupLabel k, String.mk lex, line, col⟩ :: front, ?_, ?_, ?_, ?_⟩
            · rw [← h, h1]; simp [lineAfter, hnl]
            · simp only [List.map_cons, List.filter_cons, hkeep, if_true, h2]
            · simp only [List.map_cons, List.filter_cons, hkeep, if_true, h3]
            · intro m hm
              rcases List.mem_cons.mp hm with rfl | hm2
              · simp [hmm]
              · exact h4 m hm2

/-!  ## Tokenizer-level corollaries -/

theorem groupLabel_ne_eof (k : String) : groupLabel k ≠ "EOF" := by
  rw [groupLabel.eq_def]
  split <;> decide

theorem groupLabel_langle {k : String} (h : groupLabel k = "LANGLE") : k = "LBRACE" := by
  rw [groupLabel.eq_def] at h
  split at h <;> first | rfl | (exact absurd h (by decide))

theorem groupLabel_rangle {k : String} (h : groupLabel k = "RANGLE") : k = "RBRACE" := by
  rw [groupLabel.eq_def] at h
  split at h <;> first | rfl | (exact absurd h (by decide))

theorem groupLabel_mismatch {k : String} (h : groupLabel k = "MISMATCH") : k = "NEWLINE" := by
  rw [groupLabel.eq_def] at h
  split at h <;> first | rfl | (exact absurd h (by decide))

theorem matchesOf_brace :
    ∀ n l, l.length ≤ n → ∀ m ∈ matchesOf l,
      (m.1 = "LBRACE" → m.2 = ['\x7b']) ∧ (m.1 = "RBRACE" → m.2 = ['\x7d']) := by
  intro n
  induction n with
  | zero =>
    intro l hl m hm
    cases l with
    | nil => simp [matchesOf, matchesAux] at hm
    | cons c cs => simp at hl
  | succ f ih =>
    intro l hl m hm
    cases l with
    | nil => simp [matchesOf, matchesAux] at hm
    | cons c cs =>
      obtain ⟨k, t, r, heq, happ, _, hlb, hrb⟩ := nextMatch_master c cs
      have hrcs : r.length ≤ cs.length := by
        have := congrArg List.length happ
        simp only [List.length_append] at this
        omega
      rw [matchesOf_cons c cs k (c :: t) r heq hrcs] at hm
      rcases List.mem_cons.mp hm with h | h
      · subst h
        refine ⟨fun hk => ?_, fun hk => ?_⟩
        · obtain ⟨hc, hts⟩ := hlb hk
          simp [hc, hts]
        · obtain ⟨hc, hts⟩ := hrb hk
          simp [hc, hts]
      · exact ih r (le_trans hrcs (by simpa using hl)) m h

theorem maps_pointwise {α β : Type} (f g : α → String) (u v : β → String) :
    ∀ (xs : List α) (ys : List β), xs.map f = ys.map u → xs.map g = ys.map v →
      ∀ x ∈ xs, ∃ y ∈ ys, f x = u y ∧ g x = v y := by
  intro xs
  induction xs with
  | nil => intro ys _ _ x hx; simp at hx
  | cons a xs ih =>
    intro ys h1 h2
    cases ys with
    | nil => simp at h1
    | cons b ys =>
      simp only [List.map_cons, List.cons.injEq] at h1 h2
      intro x hx
      rcases List.mem_cons.mp hx with rfl | hx2
      · exact ⟨b, by simp, h1.1, h2.1⟩
      · obtain ⟨y, hy, he⟩ := ih ys h1.2 h2.2 x hx2
        exact ⟨y, by simp [hy], he⟩

theorem tokenizeL_ok_shape (l : List Char) (ts : List Token)
    (h : tokenizeL l = .ok ts) :
    ∃ front, ts = front ++ [⟨"EOF", "", 1 + countLineIncr (matchesOf l), 0⟩] ∧
      front.map Token.type = ((matchesOf l).filter keepMatch).map (fun m => groupLabel m.1) ∧
      front.map Token.value = ((matchesOf l).filter keepMatch).map (fun m => String.mk m.2) ∧
      (∀ m ∈ matchesOf l, groupLabel m.1 ≠ "MISMATCH") := by
  rw [tokenizeL_eq] at h
  obtain ⟨front, h1, h2, h3, h4⟩ := processMatches_ok_shape (matchesOf l) 1 0 ts h
  rw [lineAfter_eq] at h1
  exact ⟨front, h1, h2, h3, h4⟩

theorem tokenizeL_front_types (l : List Char) (ts front : List Token) (eofLine : Nat)
    (h : tokenizeL l = .ok ts)
    (hts : ts = front ++ [⟨"EOF", "", eofLine, 0⟩])
    (hmapT : front.map Token.type = ((matchesOf l).filter keepMatch).map
      (fun m => groupLabel m.1))
    (hmapV : front.map Token.value = ((matchesOf l).filter keepMatch).map
      (fun m => String.mk m.2)) :
    ∀ t ∈ front, ∃ m ∈ (matchesOf l).filter keepMatch,
      t.type = groupLabel m.1 ∧ t.value = String.mk m.2 := by
  exact maps_pointwise Token.type Token.value
    (fun (m : String × List Char) => groupLabel m.1)
    (fun (m : String × List Char) => String.mk m.2)
    front ((matchesOf l).filter keepMatch) hmapT hmapV

theorem tokenizeL_front_types_ne (l : List Char) (ts front : List Token) (eofLine : Nat)
    (h : tokenizeL l = .ok ts)
    (hts : ts = front ++ [⟨"EOF", "", eofLine, 0⟩])
    (hmapT : front.map Token.type = ((matchesOf l).filter keepMatch).map
      (fun m => groupLabel m.1)) :
    ∀ t ∈ front, t.type ≠ "EOF" ∧ t.type ≠ "SKIP" ∧ t.type ≠ "NEWLINE" ∧
      t.type ≠ "MISMATCH" := by
  intro t ht
  obtain ⟨front2, h1, h2, h3, h4⟩ := tokenizeL_ok_shape l ts h
  have htype : t.type ∈ ((matchesOf l).filter keepMatch).map (fun m => groupLabel m.1) := by
    rw [← hmapT]
    exact List.mem_map.mpr ⟨t, ht, rfl⟩
  obtain ⟨m, hm, hmt⟩ := List.mem_map.mp htype
  have hmem : m ∈ matchesOf l := List.mem_of_mem_filter hm
  have hkeep : keepMatch m = true := List.of_mem_filter hm
  have hnm : groupLabel m.1 ≠ "MISMATCH" := h4 m hmem
  have hns : groupLabel m.1 ≠ "SKIP" ∧ groupLabel m.1 ≠ "NEWLINE" := by
    unfold keepMatch at hkeep
    constructor
    · intro hx
      rw [hx] at hkeep
      simp at hkeep
    · intro hx
      rw [hx] at hkeep
      simp at hkeep
  rw [← hmt]
  exact ⟨groupLabel_ne_eof m.1, hns.1, hns.2, hnm⟩

theorem tokenizeL_goodTokens (l : List Char) (ts : List Token)
    (h : tokenizeL l = .ok ts) : goodTokens ts := by
  obtain ⟨front, h1, h2, h3, h4⟩ := tokenizeL_ok_shape l ts h
  refine ⟨front, 1 + countLineIncr (matchesOf l), h1, ?_⟩
  intro t ht
  exact (tokenizeL_front_types_ne l ts front (1 + countLineIncr (matchesOf l))
    h h1 h2 t ht).1

/-!  ## Parser shape lemmas (no assumption on the token list) -/

theorem parseExprStatement_shape (ts : List Token) (pos : Nat) (nd : Node) (p2 : Nat)
    (h : parseExprStatement ts pos = .ok (nd, p2)) : isFieldOrStmt nd = true := by
  unfold parseExprStatement at h
  split at h
  · simp at h
  · split at h
    · simp at h
    · simp only [Except.ok.injEq, Prod.mk.injEq] at h
      rw [← h.1]
      rfl

theorem parseStatement_shape (ts : List Token) (pos : Nat) (nd : Node) (p2 : Nat)
    (h : parseStatement ts pos = .ok (nd, p2)) : isFieldOrStmt nd = true := by
  unfold parseStatement at h
  split at h
  · simp at h
  · split at h
    · split at h
      · simp at h
      · split at h
        · split at h
          · simp at h
          · split at h
            · simp at h
            · split at h
              · simp at h
              · split at h
                · split at h
                  · simp at h
                  · split at h
                    · simp at h
                    · split at h
                      · simp at h
                      · simp only [Except.ok.injEq, Prod.mk.injEq] at h
                        rw [← h.1]
                        rfl
                · split at h
                  · simp at h
                  · simp only [Except.ok.injEq, Prod.mk.injEq] at h
                    rw [← h.1]
                    rfl
        · exact parseExprStatement_shape ts pos nd p2 h
    · exact parseExprStatement_shape ts pos nd p2 h

theorem parseBlockLoop_shape :
    ∀ fuel ts pos acc stmts p2, (∀ nd ∈ acc, isFieldOrStmt nd = true) →
      parseBlockLoop ts fuel pos acc = .ok (stmts, p2) →
      ∀ nd ∈ stmts, isFieldOrStmt nd = true := by
  intro fuel
  induction fuel with
  | zero =>
    intro ts pos acc stmts p2 hacc h
    simp [parseBlockLoop] at h
  | succ f ih =>
    intro ts pos acc stmts p2 hacc h
    unfold parseBlockLoop at h
    split at h
    · simp at h
    · split at h
      · simp only [Except.ok.injEq, Prod.mk.injEq] at h
        rw [← h.1]
        exact hacc
      · split at h
        · simp at h
        · rename_i st p1 heq
          refine ih ts p1 (acc ++ [st]) stmts p2 ?_ h
          intro nd hnd
          rcases List.mem_append.mp hnd with h1 | h1
          · exact hacc nd h1
          · rw [List.mem_singleton.mp h1]
            exact parseStatement_shape ts pos st p1 heq

theorem parseBlock_shape (ts : List Token) (fuel pos : Nat) (stmts : List Node) (p2 : Nat)
    (h : parseBlock ts fuel pos = .ok (stmts, p2)) :
    ∀ nd ∈ stmts, isFieldOrStmt nd = true := by
  unfold parseBlock at h
  split at h
  · simp at h
  · split at h
    · simp at h
    · rename_i stmts2 p3 heq
      split at h
      · simp at h
      · simp only [Except.ok.injEq, Prod.mk.injEq] at h
        intro nd hnd
        rw [← h.1] at hnd
        exact parseBlockLoop_shape fuel ts _ [] stmts2 p3 (by simp) heq nd hnd

theorem parseClass_shape (ts : List Token) (fuel pos : Nat) (nd : Node) (p2 : Nat)
    (h : parseClass ts fuel pos = .ok (nd, p2)) : topDeclOk nd = true := by
  unfold parseClass at h
  split at h
  · simp at h
  · split at h
    · simp at h
    · split at h
      · simp at h
      · split at h
        · split at h
          · simp at h
          · split at h
            · simp at h
            · split at h
              · simp at h
              · rename_i mems p5 heq
                simp only [Except.ok.injEq, Prod.mk.injEq] at h
                rw [← h.1]
                unfold topDeclOk
                rw [List.all_eq_true]
                exact fun m hm => parseBlock_shape ts fuel _ mems p5 heq m hm
        · split at h
          · simp at h
          · rename_i mems p3 heq
            simp only [Except.ok.injEq, Prod.mk.injEq] at h
            rw [← h.1]
            unfold topDeclOk
            rw [List.all_eq_true]
            exact fun m hm => parseBlock_shape ts fuel _ mems p3 heq m hm

theorem parseFunction_shape (ts : List Token) (fuel pos : Nat) (nd : Node) (p2 : Nat)
    (h : parseFunction ts fuel pos = .ok (nd, p2)) : topDeclOk nd = true := by
  unfold parseFunction at h
  split at h
  · simp at h
  · split at h
    · simp at h
    · split at h
      · simp at h
      · split at h
        · simp at h
        · split at h
          · simp at h
          · split at h
            · simp at h
            · simp only [Except.ok.injEq, Prod.mk.injEq] at h
              rw [← h.1]
              rfl

theorem parseProgramLoop_shape :
    ∀ fuel ts pos acc ds p2, (∀ d ∈ acc, topDeclOk d = true) →
      parseProgramLoop ts fuel pos acc = .ok (ds, p2) →
      ∀ d ∈ ds, topDeclOk d = true := by
  intro fuel
  induction fuel with
  | zero =>
    intro ts pos acc ds p2 hacc h
    simp [parseProgramLoop] at h
  | succ f ih =>
    intro ts pos acc ds p2 hacc h
    unfold parseProgramLoop at h
    split at h
    · simp at h
    · split at h
      · simp only [Except.ok.injEq, Prod.mk.injEq] at h
        rw [← h.1]
        exact hacc
      · split at h
        · simp at h
        · rename_i d p1 heq
          refine ih ts p1 (acc ++ [d]) ds p2 ?_ h
          intro x hx
          rcases List.mem_append.mp hx with h1 | h1
          · exact hacc x h1
          · rw [List.mem_singleton.mp h1]
            split at heq
            · exact parseClass_shape ts f pos d p1 heq
            · exact parseFunction_shape ts f pos d p1 heq
/-!  ## Code generator lemmas -/

theorem emitStatementCG_append (code ind : String) (st : Node) :
    ∃ add, emitStatementCG ⟨code, ind⟩ st = ⟨code ++ add, ind⟩ := by
  cases st with
  | varDecl ty nm de =>
    by_cases hd : de.value ≠ ""
    · refine ⟨ind ++ ty ++ " " ++ nm ++ " = " ++ de.value ++ ";\n", ?_⟩
      simp [emitStatementCG, hd, String.append_assoc]
    · refine ⟨ind ++ ty ++ " " ++ nm ++ ";\n", ?_⟩
      simp [emitStatementCG, hd, String.append_assoc]
  | stmt e =>
    exact ⟨ind ++ e.value ++ ";\n", by simp [emitStatementCG, String.append_assoc]⟩
  | functionDecl rt nm ps body =>
    exact ⟨ind ++ "// Unknown statement\n", by simp [emitStatementCG, String.append_assoc]⟩
  | classDecl nm par mems =>
    exact ⟨ind ++ "// Unknown statement\n", by simp [emitStatementCG, String.append_assoc]⟩
  | other =>
    exact ⟨ind ++ "// Unknown statement\n", by simp [emitStatementCG, String.append_assoc]⟩

theorem foldl_emitStatement_append :
    ∀ (body : List Node) (code ind : String),
      ∃ add, body.foldl emitStatementCG ⟨code, ind⟩ = ⟨code ++ add, ind⟩ := by
  intro body
  induction body with
  | nil => intro code ind; exact ⟨"", by simp⟩
  | cons st rest ih =>
    intro code ind
    obtain ⟨a, ha⟩ := emitStatementCG_append code ind st
    obtain ⟨b, hb⟩ := ih (code ++ a) ind
    refine ⟨a ++ b, ?_⟩
    simp only [List.foldl_cons, ha, hb]
    simp [String.append_assoc]

theorem emitFunctionCG_append (cg : CG) (rt nm : String) (ps : List Param) (body : List Node) :
    ∃ add, emitFunctionCG cg rt nm ps body = ⟨cg.code ++ add, "    "⟩ := by
  unfold emitFunctionCG
  dsimp only
  obtain ⟨b, hb⟩ := foldl_emitStatement_append body
    (cg.code ++ rt ++ " " ++ nm ++ "(" ++
      String.intercalate (", ") (ps.map (fun p => p.type ++ " " ++ p.name)) ++ ") \x7b\n") "    "
  rw [hb]
  exact ⟨rt ++ " " ++ nm ++ "(" ++
      String.intercalate (", ") (ps.map (fun p => p.type ++ " " ++ p.name)) ++ ") \x7b\n" ++
      b ++ "\x7d\n\n", by simp [String.append_assoc]⟩

theorem emitClassField_append (code ind : String) (m : Node) :
    ∃ add, emitClassField ⟨code, ind⟩ m = ⟨code ++ add, ind⟩ := by
  cases m with
  | varDecl ty vn de =>
    exact ⟨"    " ++ ty ++ " " ++ vn ++ ";\n", by simp [emitClassField, String.append_assoc]⟩
  | functionDecl rt nm ps body => exact ⟨"", by simp [emitClassField]⟩
  | classDecl nm par ms => exact ⟨"", by simp [emitClassField]⟩
  | stmt e => exact ⟨"", by simp [emitClassField]⟩
  | other => exact ⟨"", by simp [emitClassField]⟩

theorem foldl_emitClassField_append :
    ∀ (mems : List Node) (code ind : String),
      ∃ add, mems.foldl emitClassField ⟨code, ind⟩ = ⟨code ++ add, ind⟩ := by
  intro mems
  induction mems with
  | nil => intro code ind; exact ⟨"", by simp⟩
  | cons m rest ih =>
    intro code ind
    obtain ⟨a, ha⟩ := emitClassField_append code ind m
    obtain ⟨b, hb⟩ := ih (code ++ a) ind
    refine ⟨a ++ b, ?_⟩
    simp only [List.foldl_cons, ha, hb]
    simp [String.append_assoc]

theorem emitClassMethod_append (nm : String) (code ind : String) (m : Node) :
    ∃ add ind2, emitClassMethod nm ⟨code, ind⟩ m = ⟨code ++ add, ind2⟩ := by
  cases m with
  | functionDecl rt fn fps fbody =>
    unfold emitClassMethod
    dsimp only
    obtain ⟨b, hb⟩ := foldl_emitStatement_append fbody
      (code ++ rt ++ " " ++ nm ++ "_" ++ fn ++ "(" ++
        String.intercalate (", ") ((nm ++ "* this") :: fps.map (fun p => p.type ++ " " ++ p.name)) ++
        ") \x7b\n") "    "
    rw [hb]
    exact ⟨rt ++ " " ++ nm ++ "_" ++ fn ++ "(" ++
        String.intercalate (", ") ((nm ++ "* this") :: fps.map (fun p => p.type ++ " " ++ p.name)) ++
        ") \x7b\n" ++ b ++ "\x7d\n\n", "    ", by simp [String.append_assoc]⟩
  | varDecl ty vn de => exact ⟨"", ind, by simp [emitClassMethod]⟩
  | classDecl n2 par ms => exact ⟨"", ind, by simp [emitClassMethod]⟩
  | stmt e => exact ⟨"", ind, by simp [emitClassMethod]⟩
  | other => exact ⟨"", ind, by simp [emitClassMethod]⟩

theorem foldl_emitClassMethod_append :
    ∀ (mems : List Node) (nm : String) (code ind : String),
      ∃ add ind2, mems.foldl (emitClassMethod nm) ⟨code, ind⟩ = ⟨code ++ add, ind2⟩ := by
  intro mems
  induction mems with
  | nil => intro nm code ind; exact ⟨"", ind, by simp⟩
  | cons m rest ih =>
    intro nm code ind
    obtain ⟨a, ind1, ha⟩ := emitClassMethod_append nm code ind m
    obtain ⟨b, ind2, hb⟩ := ih nm (code ++ a) ind1
    refine ⟨a ++ b, ind2, ?_⟩
    simp only [List.foldl_cons, ha, hb]
    simp [String.append_assoc]

theorem emitClassCG_append (cg : CG) (nm : String) (mems : List Node) :
    ∃ add ind2, emitClassCG cg nm mems = ⟨cg.code ++ add, ind2⟩ := by
  unfold emitClassCG
  dsimp only
  obtain ⟨a, ha⟩ := foldl_emitClassField_append mems
    (cg.code ++ "typedef struct " ++ nm ++ " \x7b\n") cg.indent
  rw [ha]
  dsimp only
  obtain ⟨b, ind2, hb⟩ := foldl_emitClassMethod_append mems nm
    (cg.code ++ "typedef struct " ++ nm ++ " \x7b\n" ++ a ++ ("\x7d " ++ nm ++ ";\n\n"))
    cg.indent
  rw [show cg.code ++ "typedef struct " ++ nm ++ " \x7b\n" ++ a ++ "\x7d " ++ nm ++ ";\n\n" =
      cg.code ++ "typedef struct " ++ nm ++ " \x7b\n" ++ a ++ ("\x7d " ++ nm ++ ";\n\n")
    from by simp [String.append_assoc]]
  rw [hb]
  exact ⟨"typedef struct " ++ nm ++ " \x7b\n" ++ a ++ ("\x7d " ++ nm ++ ";\n\n") ++ b, ind2,
    by simp [String.append_assoc]⟩

theorem generateStep_append (cg : CG) (d : Node) :
    ∃ add ind2, generateStep cg d = ⟨cg.code ++ add, ind2⟩ := by
  cases d with
  | functionDecl rt nm ps body =>
    obtain ⟨a, ha⟩ := emitFunctionCG_append cg rt nm ps body
    exact ⟨a, "    ", ha⟩
  | classDecl nm par mems =>
    obtain ⟨a, ind, ha⟩ := emitClassCG_append cg nm mems
    exact ⟨a, ind, ha⟩
  | varDecl ty vn de => exact ⟨"", cg.indent, by simp [generateStep]⟩
  | stmt e => exact ⟨"", cg.indent, by simp [generateStep]⟩
  | other => exact ⟨"", cg.indent, by simp [generateStep]⟩

theorem foldl_generateStep_append :
    ∀ (ds : List Node) (cg : CG),
      ∃ add ind2, ds.foldl generateStep cg = ⟨cg.code ++ add, ind2⟩ := by
  intro ds
  induction ds with
  | nil => intro cg; exact ⟨"", cg.indent, by simp⟩
  | cons d rest ih =>
    intro cg
    obtain ⟨a, ind1, ha⟩ := generateStep_append cg d
    obtain ⟨b, ind2, hb⟩ := ih ⟨cg.code ++ a, ind1⟩
    refine ⟨a ++ b, ind2, ?_⟩
    simp only [List.foldl_cons, ha]
    rw [hb]
    simp [String.append_assoc]

/-- Every generated output starts with the fixed includes prelude. -/
theorem generate_prelude (p : Program) :
    ∃ t, generate p = includesText ++ t := by
  unfold generate
  obtain ⟨a, ind, ha⟩ := foldl_generateStep_append p.declarations ⟨includesText, ""⟩
  exact ⟨a, by rw [ha]⟩

/-!  ## Remaining support lemmas -/

theorem tailRun_sumLen_le (pre : List (String × List Char)) :
    sumLen (tailRun pre) ≤ sumLen pre := by
  have hsplit := List.takeWhile_append_dropWhile
    (p := fun m => !(groupLabel m.1 == "NEWLINE")) (l := pre.reverse)
  have := congrArg sumLen hsplit
  rw [sumLen_append, sumLen_reverse] at this
  unfold tailRun
  omega

theorem colAfter_zero (pre : List (String × List Char)) :
    colAfter 0 pre = sumLen pre - lineStartOff pre := by
  rw [colAfter_eq]
  unfold lineStartOff
  have hle := tailRun_sumLen_le pre
  by_cases hany : pre.any (fun m => groupLabel m.1 == "NEWLINE") = true
  · simp only [hany, if_true]
    omega
  · have hanyf : pre.any (fun m => groupLabel m.1 == "NEWLINE") = false := by
      cases hx : pre.any (fun m => groupLabel m.1 == "NEWLINE")
      · rfl
      · exact absurd hx hany
    have hall : ∀ a ∈ pre.reverse, (fun m => !(groupLabel m.1 == "NEWLINE")) a = true := by
      intro a ha
      simp only [Bool.not_eq_true']
      by_contra hne
      have hmem : pre.any (fun m => groupLabel m.1 == "NEWLINE") = true :=
        List.any_eq_true.mpr ⟨a, List.mem_reverse.mp ha, by
          cases hx : (groupLabel a.1 == "NEWLINE")
          · exact absurd hx hne
          · rfl⟩
      exact hany hmem
    have htail : tailRun pre = pre.reverse := by
      unfold tailRun
      have := takeWhile_append_all (fun m => !(groupLabel m.1 == "NEWLINE")) pre.reverse [] hall
      simpa using this
    rw [hanyf]
    simp only [Bool.false_eq_true, if_false, htail, sumLen_reverse]
    omega

/-- The match sequence of any input starting with the first generated line
`#include <stdio.h>` and a newline: nine concrete matches — `#` (catch-all),
`include` (ID), a space (SKIP), `<` (OP), `stdio` (ID), `.` (catch-all),
`h` (ID), `>` (OP) and the newline (NEWLINE) — followed by the matches of
whatever comes after the newline. -/
theorem matchesOf_include_prefix (rest : List Char) :
    matchesOf ('#' :: 'i' :: 'n' :: 'c' :: 'l' :: 'u' :: 'd' :: 'e' :: ' ' :: '<' ::
        's' :: 't' :: 'd' :: 'i' :: 'o' :: '.' :: 'h' :: '>' :: '\n' :: rest) =
      ("MISMATCH", ['#']) :: ("ID", ['i', 'n', 'c', 'l', 'u', 'd', 'e']) ::
      ("SKIP", [' ']) :: ("OP", ['<']) :: ("ID", ['s', 't', 'd', 'i', 'o']) ::
      ("MISMATCH", ['.']) :: ("ID", ['h']) :: ("OP", ['>']) ::
      ("NEWLINE", ['\n']) :: matchesOf rest := by
  have e1 : ∀ cs, nextMatch '#' cs = ("MISMATCH", ['#'], cs) := fun _ => rfl
  have e2 : ∀ cs, nextMatch 'i' ('n' :: 'c' :: 'l' :: 'u' :: 'd' :: 'e' :: ' ' :: cs) =
      ("ID", ['i', 'n', 'c', 'l', 'u', 'd', 'e'], ' ' :: cs) := fun _ => rfl
  have e3 : ∀ cs, nextMatch ' ' ('<' :: cs) = ("SKIP", [' '], '<' :: cs) := fun _ => rfl
  have e4 : ∀ cs, nextMatch '<' cs = ("OP", ['<'], cs) := fun _ => rfl
  have e5 : ∀ cs, nextMatch 's' ('t' :: 'd' :: 'i' :: 'o' :: '.' :: cs) =
      ("ID", ['s', 't', 'd', 'i', 'o'], '.' :: cs) := fun _ => rfl
  have e6 : ∀ cs, nextMatch '.' cs = ("MISMATCH", ['.'], cs) := fun _ => rfl
  have e7 : ∀ cs, nextMatch 'h' ('>' :: cs) = ("ID", ['h'], '>' :: cs) := fun _ => rfl
  have e8 : ∀ cs, nextMatch '>' cs = ("OP", ['>'], cs) := fun _ => rfl
  have e9 : ∀ cs, nextMatch '\n' cs = ("NEWLINE", ['\n'], cs) := fun _ => rfl
  rw [matchesOf_cons _ _ _ _ _ (e1 _) (Nat.le_refl _),
      matchesOf_cons _ _ _ _ _ (e2 _) (by simp only [List.length_cons]; omega),
      matchesOf_cons _ _ _ _ _ (e3 _) (Nat.le_refl _),
      matchesOf_cons _ _ _ _ _ (e4 _) (Nat.le_refl _),
      matchesOf_cons _ _ _ _ _ (e5 _) (by simp only [List.length_cons]; omega),
      matchesOf_cons _ _ _ _ _ (e6 _) (Nat.le_refl _),
      matchesOf_cons _ _ _ _ _ (e7 _) (by simp only [List.length_cons]; omega),
      matchesOf_cons _ _ _ _ _ (e8 _) (Nat.le_refl _),
      matchesOf_cons _ _ _ _ _ (e9 _) (Nat.le_refl _)]

theorem dropLast_concat_token (front : List Token) (t : Token) :
    (front ++ [t]).dropLast = front := by
  simp

/-!  ## Parser bounds lemmas

The Go parser indexes `p.tokens[p.pos]` and `p.tokens[p.pos+1]` directly;
these lemmas show that on a lexer-shaped token list every such access is in
bounds, so the only aborts are the explicit expectation faults.
-/

theorem good_len_pos (ts : List Token) (h : goodTokens ts) : 0 < ts.length := by
  obtain ⟨front, line, hts, _⟩ := h
  rw [hts]
  simp

theorem good_get_ne_eof (ts : List Token) (h : goodTokens ts) (pos : Nat) (t : Token)
    (hget : ts.get? pos = some t) (hne : t.type ≠ "EOF") : pos + 1 < ts.length := by
  obtain ⟨front, line, hts, hfront⟩ := h
  subst hts
  have hlt : pos < front.length + 1 := by
    have := List.get?_eq_some.mp hget
    obtain ⟨hp, _⟩ := this
    simpa using hp
  rcases Nat.lt_or_ge pos front.length with hp | hp
  · simp [List.length_append]
    omega
  · have hpe : pos = front.length := by omega
    rw [hpe, List.get?_concat_length] at hget
    have : t = ⟨"EOF", "", line, 0⟩ := by
      simpa using hget.symm
    rw [this] at hne
    exact absurd rfl hne

theorem good_get_eof_value (ts : List Token) (h : goodTokens ts) (pos : Nat) (t : Token)
    (hget : ts.get? pos = some t) (heof : t.type = "EOF") : t.value = "" := by
  obtain ⟨front, line, hts, hfront⟩ := h
  subst hts
  have hlt : pos < front.length + 1 := by
    have := List.get?_eq_some.mp hget
    obtain ⟨hp, _⟩ := this
    simpa using hp
  rcases Nat.lt_or_ge pos front.length with hp | hp
  · rw [List.get?_append hp] at hget
    have hmem : t ∈ front := List.get?_mem hget
    exact absurd heof (hfront t hmem)
  · have hpe : pos = front.length := by omega
    rw [hpe, List.get?_concat_length] at hget
    have : t = ⟨"EOF", "", line, 0⟩ := by
      simpa using hget.symm
    rw [this]

theorem getTok_ok (ts : List Token) (pos : Nat) (hpos : pos < ts.length) :
    ∃ t, getTok ts pos = .ok t ∧ ts.get? pos = some t := by
  unfold getTok
  have := List.get?_eq_get hpos
  rw [this]
  exact ⟨ts.get ⟨pos, hpos⟩, rfl, rfl⟩

theorem consume_empty_ok (ts : List Token) (pos : Nat) (hpos : pos < ts.length) :
    ∃ t, consume ts pos [] = .ok (t, pos + 1) ∧ ts.get? pos = some t := by
  obtain ⟨t, hg, hget⟩ := getTok_ok ts pos hpos
  refine ⟨t, ?_, hget⟩
  unfold consume
  rw [hg]
  rfl

theorem consume_errOk (ts : List Token) (pos : Nat) (exp : List String)
    (hpos : pos < ts.length) : errOk (consume ts pos exp) := by
  obtain ⟨t, hg, hget⟩ := getTok_ok ts pos hpos
  unfold consume
  rw [hg]
  dsimp only
  by_cases he : exp.isEmpty
  · rw [if_pos he]
    trivial
  · rw [if_neg he]
    by_cases hm : exp.any (fun e => t.type == e || t.value == e)
    · rw [if_pos hm]
      trivial
    · rw [if_neg hm]
      exact ⟨by simp, by simp⟩

theorem consume_ok_dest (ts : List Token) (pos : Nat) (exp : List String) (t : Token) (p2 : Nat)
    (h : consume ts pos exp = .ok (t, p2)) :
    p2 = pos + 1 ∧ ts.get? pos = some t ∧
      (exp ≠ [] → ∃ e ∈ exp, t.type = e ∨ t.value = e) := by
  unfold consume at h
  cases hg : getTok ts pos with
  | error e => rw [hg] at h; simp at h
  | ok tok =>
    rw [hg] at h
    dsimp only at h
    have hget : ts.get? pos = some tok := by
      unfold getTok at hg
      cases hx : ts.get? pos with
      | none => rw [hx] at hg; simp at hg
      | some u =>
        rw [hx] at hg
        dsimp only at hg
        simp only [Except.ok.injEq] at hg
        rw [hg]
    by_cases he : exp.isEmpty
    · rw [if_pos he] at h
      simp only [Except.ok.injEq, Prod.mk.injEq] at h
      obtain ⟨h1, h2⟩ := h
      subst h1; subst h2
      exact ⟨rfl, hget, fun hx => absurd (List.isEmpty_iff.mp he) hx⟩
    · rw [if_neg he] at h
      by_cases hm : exp.any (fun e => tok.type == e || tok.value == e)
      · rw [if_pos hm] at h
        simp only [Except.ok.injEq, Prod.mk.injEq] at h
        obtain ⟨h1, h2⟩ := h
        subst h1; subst h2
        refine ⟨rfl, hget, fun _ => ?_⟩
        obtain ⟨e, hmem, hpe⟩ := List.any_eq_true.mp hm
        rcases Bool.or_eq_true_iff.mp hpe with hx | hx
        · exact ⟨e, hmem, Or.inl (by simpa using hx)⟩
        · exact ⟨e, hmem, Or.inr (by simpa using hx)⟩
      · rw [if_neg hm] at h
        simp at h

theorem consume_lit_next (ts : List Token) (pos : Nat) (e : String) (t : Token) (p2 : Nat)
    (hgood : goodTokens ts) (he1 : e ≠ "EOF") (he2 : e ≠ "")
    (h : consume ts pos [e] = .ok (t, p2)) :
    p2 = pos + 1 ∧ p2 < ts.length := by
  obtain ⟨hp2, hget, hexp⟩ := consume_ok_dest ts pos [e] t p2 h
  have hne : t.type ≠ "EOF" := by
    intro heof
    have hval := good_get_eof_value ts hgood pos t hget heof
    obtain ⟨e2, hmem, hor⟩ := hexp (by simp)
    have he : e2 = e := by simpa using hmem
    subst he
    rcases hor with hx | hx
    · rw [heof] at hx
      exact he1 hx.symm
    · rw [hval] at hx
      exact he2 hx.symm
  have := good_get_ne_eof ts hgood pos t hget hne
  omega

theorem error_ne_of_errOk {α : Type} {r : Except ParseError α} (h : errOk r) :
    r ≠ .error .oob ∧ r ≠ .error .nofuel := by
  cases r with
  | ok a => exact ⟨by simp, by simp⟩
  | error e =>
    obtain ⟨h1, h2⟩ := h
    constructor
    · intro hx
      simp only [Except.error.injEq] at hx
      exact h1 hx
    · intro hx
      simp only [Except.error.injEq] at hx
      exact h2 hx

theorem parseExpression_bounds (ts : List Token) (pos : Nat)
    (hgood : goodTokens ts) (hpos : pos < ts.length) :
    errOk (parseExpression ts pos) ∧
    ∀ e p2, parseExpression ts pos = .ok (e, p2) → p2 = pos + 1 ∧ p2 < ts.length := by
  obtain ⟨t, hc, hget⟩ := consume_empty_ok ts pos hpos
  unfold parseExpression
  rw [hc]
  dsimp only
  constructor
  · split
    · trivial
    · exact ⟨by simp, by simp⟩
  · intro e p2 hok
    revert hok
    split
    · intro hok
      rename_i hcond
      simp only [Except.ok.injEq, Prod.mk.injEq] at hok
      obtain ⟨h1, h2⟩ := hok
      subst h2
      refine ⟨rfl, ?_⟩
      have hne : t.type ≠ "EOF" := by
        simp only [Bool.or_eq_true, decide_eq_true_eq] at hcond
        rcases hcond with (hx | hx) | hx <;> (rw [hx]; decide)
      have := good_get_ne_eof ts hgood pos t hget hne
      omega
    · intro hok
      simp at hok

theorem parseExprStatement_bounds (ts : List Token) (pos : Nat)
    (hgood : goodTokens ts) (hpos : pos < ts.length) :
    errOk (parseExprStatement ts pos) ∧
    ∀ nd p2, parseExprStatement ts pos = .ok (nd, p2) → pos < p2 ∧ p2 < ts.length := by
  obtain ⟨hek, heb⟩ := parseExpression_bounds ts pos hgood hpos
  unfold parseExprStatement
  cases hpe : parseExpression ts pos with
  | error e =>
    rw [hpe] at hek
    exact ⟨hek, fun nd p2 hok => nomatch hok⟩
  | ok pe =>
    obtain ⟨e0, p1⟩ := pe
    dsimp only
    obtain ⟨hb1, hb2⟩ := heb e0 p1 hpe
    cases hcs : consume ts p1 ["SEMICOLON"] with
    | error e2 =>
      have hce := consume_errOk ts p1 ["SEMICOLON"] hb2
      rw [hcs] at hce
      exact ⟨hce, fun nd p2 hok => nomatch hok⟩
    | ok pr =>
      obtain ⟨t2, p2a⟩ := pr
      dsimp only
      obtain ⟨hn1, hn2⟩ := consume_lit_next ts p1 ("SEMICOLON") t2 p2a hgood
        (by decide) (by decide) hcs
      refine ⟨True.intro, ?_⟩
      intro nd p2 hok
      simp only [Except.ok.injEq, Prod.mk.injEq] at hok
      obtain ⟨_, hpp⟩ := hok
      subst hpp
      omega

theorem parseStatement_bounds (ts : List Token) (pos : Nat)
    (hgood : goodTokens ts) (hpos : pos < ts.length) :
    errOk (parseStatement ts pos) ∧
    ∀ nd p2, parseStatement ts pos = .ok (nd, p2) → pos < p2 ∧ p2 < ts.length := by
  obtain ⟨cur, hgt, hget⟩ := getTok_ok ts pos hpos
  unfold parseStatement
  rw [hgt]
  dsimp only
  by_cases hid : cur.type = "ID"
  case neg =>
    rw [if_neg hid]
    exact parseExprStatement_bounds ts pos hgood hpos
  case pos =>
    rw [if_pos hid]
    have hp1 : pos + 1 < ts.length :=
      good_get_ne_eof ts hgood pos cur hget (by rw [hid]; decide)
    obtain ⟨nxt, hgt2, hget2⟩ := getTok_ok ts (pos + 1) hp1
    rw [hgt2]
    dsimp only
    by_cases hnid : nxt.type = "ID"
    case neg =>
      rw [if_neg hnid]
      exact parseExprStatement_bounds ts pos hgood hpos
    case pos =>
      rw [if_pos hnid]
      cases h1 : consume ts pos ["ID"] with
      | error e =>
        have hce := consume_errOk ts pos ["ID"] hpos
        rw [h1] at hce
        exact ⟨hce, fun nd p2 hok => nomatch hok⟩
      | ok pr1 =>
        obtain ⟨tyTok, p1⟩ := pr1
        dsimp only
        obtain ⟨ha1, ha2⟩ := consume_lit_next ts pos ("ID") tyTok p1 hgood
          (by decide) (by decide) h1
        cases h2 : consume ts p1 ["ID"] with
        | error e =>
          have hce := consume_errOk ts p1 ["ID"] ha2
          rw [h2] at hce
          exact ⟨hce, fun nd p2 hok => nomatch hok⟩
        | ok pr2 =>
          obtain ⟨nmTok, p2a⟩ := pr2
          dsimp only
          obtain ⟨hb1, hb2⟩ := consume_lit_next ts p1 ("ID") nmTok p2a hgood
            (by decide) (by decide) h2
          obtain ⟨cur2, hgt3, hget3⟩ := getTok_ok ts p2a hb2
          rw [hgt3]
          dsimp only
          by_cases heq2 : cur2.value = "="
          case pos =>
            rw [if_pos heq2]
            cases h3 : consume ts p2a ["OP"] with
            | error e =>
              have hce := consume_errOk ts p2a ["OP"] hb2
              rw [h3] at hce
              exact ⟨hce, fun nd p2 hok => nomatch hok⟩
            | ok pr3 =>
              obtain ⟨opTok, p3⟩ := pr3
              dsimp only
              obtain ⟨hc1, hc2⟩ := consume_lit_next ts p2a ("OP") opTok p3 hgood
                (by decide) (by decide) h3
              obtain ⟨hek, heb⟩ := parseExpression_bounds ts p3 hgood hc2
              cases h4 : parseExpression ts p3 with
              | error e =>
                rw [h4] at hek
                exact ⟨hek, fun nd p2 hok => nomatch hok⟩
              | ok pr4 =>
                obtain ⟨defE, p4⟩ := pr4
                dsimp only
                obtain ⟨hd1, hd2⟩ := heb defE p4 h4
                cases h5 : consume ts p4 ["SEMICOLON"] with
                | error e =>
                  have hce := consume_errOk ts p4 ["SEMICOLON"] hd2
                  rw [h5] at hce
                  exact ⟨hce, fun nd p2 hok => nomatch hok⟩
                | ok pr5 =>
                  obtain ⟨t5, p5⟩ := pr5
                  dsimp only
                  obtain ⟨hf1, hf2⟩ := consume_lit_next ts p4 ("SEMICOLON") t5 p5 hgood
                    (by decide) (by decide) h5
                  refine ⟨True.intro, ?_⟩
                  intro nd p2 hok
                  simp only [Except.ok.injEq, Prod.mk.injEq] at hok
                  obtain ⟨_, hpp⟩ := hok
                  subst hpp
                  omega
          case neg =>
            rw [if_neg heq2]
            cases h3 : consume ts p2a ["SEMICOLON"] with
            | error e =>
              have hce := consume_errOk ts p2a ["SEMICOLON"] hb2
              rw [h3] at hce
              exact ⟨hce, fun nd p2 hok => nomatch hok⟩
            | ok pr3 =>
              obtain ⟨t3, p3⟩ := pr3
              dsimp only
              obtain ⟨hc1, hc2⟩ := consume_lit_next ts p2a ("SEMICOLON") t3 p3 hgood
                (by decide) (by decide) h3
              refine ⟨True.intro, ?_⟩
              intro nd p2 hok
              simp only [Except.ok.injEq, Prod.mk.injEq] at hok
              obtain ⟨_, hpp⟩ := hok
              subst hpp
              omega

theorem errOk_error {α : Type} {e : ParseError}
    (h : errOk (Except.error e : Except ParseError α)) : e ≠ .oob ∧ e ≠ .nofuel := h

theorem except_error_ne {α : Type} {e f : ParseError} (h : e ≠ f) :
    (Except.error e : Except ParseError α) ≠ .error f := by
  intro hx
  simp only [Except.error.injEq] at hx
  exact h hx

theorem parseParamsLoop_bounds :
    ∀ fuel ts pos acc, goodTokens ts → pos < ts.length →
      (parseParamsLoop ts fuel pos acc ≠ .error .oob) ∧
      (ts.length ≤ fuel + pos → parseParamsLoop ts fuel pos acc ≠ .error .nofuel) ∧
      (∀ ps p2, parseParamsLoop ts fuel pos acc = .ok (ps, p2) →
        pos < p2 ∧ p2 < ts.length) := by
  intro fuel
  induction fuel with
  | zero =>
    intro ts pos acc hgood hpos
    refine ⟨by simp [parseParamsLoop], ?_, by simp [parseParamsLoop]⟩
    intro hf
    exact absurd hf (by omega)
  | succ f ih =>
    intro ts pos acc hgood hpos
    unfold parseParamsLoop
    cases h1 : consume ts pos ["ID"] with
    | error e =>
      dsimp only
      have hce := consume_errOk ts pos ["ID"] hpos
      rw [h1] at hce
      have hq := errOk_error hce
      exact ⟨except_error_ne hq.1, fun _ => except_error_ne hq.2, fun ps p2 hok => nomatch hok⟩
    | ok pr1 =>
      obtain ⟨tyTok, p1⟩ := pr1
      dsimp only
      obtain ⟨ha1, ha2⟩ := consume_lit_next ts pos ("ID") tyTok p1 hgood
        (by decide) (by decide) h1
      cases h2 : consume ts p1 ["ID"] with
      | error e =>
        dsimp only
        have hce := consume_errOk ts p1 ["ID"] ha2
        rw [h2] at hce
        have hq := errOk_error hce
        exact ⟨except_error_ne hq.1, fun _ => except_error_ne hq.2, fun ps p2 hok => nomatch hok⟩
      | ok pr2 =>
        obtain ⟨nmTok, p2a⟩ := pr2
        dsimp only
        obtain ⟨hb1, hb2⟩ := consume_lit_next ts p1 ("ID") nmTok p2a hgood
          (by decide) (by decide) h2
        obtain ⟨cur, hgt3, hget3⟩ := getTok_ok ts p2a hb2
        rw [hgt3]
        dsimp only
        by_cases hcm : cur.type = "COMMA"
        case pos =>
          rw [if_pos hcm]
          cases h3 : consume ts p2a ["COMMA"] with
          | error e =>
            dsimp only
            have hce := consume_errOk ts p2a ["COMMA"] hb2
            rw [h3] at hce
            have hq := errOk_error hce
            exact ⟨except_error_ne hq.1, fun _ => except_error_ne hq.2, fun ps p2 hok => nomatch hok⟩
          | ok pr3 =>
            obtain ⟨cTok, p3⟩ := pr3
            dsimp only
            obtain ⟨hc1, hc2⟩ := consume_lit_next ts p2a ("COMMA") cTok p3 hgood
              (by decide) (by decide) h3
            have hrec := ih ts p3 (acc ++ [⟨tyTok.value, nmTok.value⟩]) hgood hc2
            refine ⟨hrec.1, ?_, ?_⟩
            · intro hf
              exact hrec.2.1 (by omega)
            · intro ps p2 hok
              have := hrec.2.2 ps p2 hok
              omega
        case neg =>
          rw [if_neg hcm]
          refine ⟨by simp, fun _ => by simp, ?_⟩
          intro ps p2 hok
          simp only [Except.ok.injEq, Prod.mk.injEq] at hok
          obtain ⟨_, hpp⟩ := hok
          subst hpp
          omega

theorem parseParams_bounds (ts : List Token) (fuel pos : Nat)
    (hgood : goodTokens ts) (hpos : pos < ts.length) :
    (parseParams ts fuel pos ≠ .error .oob) ∧
    (ts.length ≤ fuel + pos → parseParams ts fuel pos ≠ .error .nofuel) ∧
    (∀ ps p2, parseParams ts fuel pos = .ok (ps, p2) → pos ≤ p2 ∧ p2 < ts.length) := by
  unfold parseParams
  obtain ⟨cur, hgt, hget⟩ := getTok_ok ts pos hpos
  rw [hgt]
  dsimp only
  by_cases hrp : cur.type = "RPAREN"
  · rw [if_pos hrp]
    refine ⟨by simp, fun _ => by simp, ?_⟩
    intro ps p2 hok
    simp only [Except.ok.injEq, Prod.mk.injEq] at hok
    obtain ⟨_, hpp⟩ := hok
    subst hpp
    exact ⟨Nat.le_refl _, hpos⟩
  · rw [if_neg hrp]
    have h := parseParamsLoop_bounds fuel ts pos [] hgood hpos
    refine ⟨h.1, h.2.1, ?_⟩
    intro ps p2 hok
    have := h.2.2 ps p2 hok
    omega

theorem parseBlockLoop_bounds :
    ∀ fuel ts pos acc, goodTokens ts → pos < ts.length →
      (parseBlockLoop ts fuel pos acc ≠ .error .oob) ∧
      (ts.length ≤ fuel + pos → parseBlockLoop ts fuel pos acc ≠ .error .nofuel) ∧
      (∀ stmts p2, parseBlockLoop ts fuel pos acc = .ok (stmts, p2) →
        pos ≤ p2 ∧ p2 < ts.length) := by
  intro fuel
  induction fuel with
  | zero =>
    intro ts pos acc hgood hpos
    refine ⟨by simp [parseBlockLoop], ?_, by simp [parseBlockLoop]⟩
    intro hf
    exact absurd hf (by omega)
  | succ f ih =>
    intro ts pos acc hgood hpos
    unfold parseBlockLoop
    obtain ⟨cur, hgt, hget⟩ := getTok_ok ts pos hpos
    rw [hgt]
    dsimp only
    by_cases hrb : cur.type = "RBRACE"
    case pos =>
      rw [if_pos hrb]
      refine ⟨by simp, fun _ => by simp, ?_⟩
      intro stmts p2 hok
      simp only [Except.ok.injEq, Prod.mk.injEq] at hok
      obtain ⟨_, hpp⟩ := hok
      subst hpp
      exact ⟨Nat.le_refl _, hpos⟩
    case neg =>
      rw [if_neg hrb]
      obtain ⟨hek, heb⟩ := parseStatement_bounds ts pos hgood hpos
      cases hst : parseStatement ts pos with
      | error e =>
        dsimp only
        rw [hst] at hek
        have hq := errOk_error hek
        exact ⟨except_error_ne hq.1, fun _ => except_error_ne hq.2, fun stmts p2 hok => nomatch hok⟩
      | ok pr =>
        obtain ⟨st, p1⟩ := pr
        dsimp only
        obtain ⟨hb1, hb2⟩ := heb st p1 hst
        have hrec := ih ts p1 (acc ++ [st]) hgood hb2
        refine ⟨hrec.1, ?_, ?_⟩
        · intro hf
          exact hrec.2.1 (by omega)
        · intro stmts p2 hok
          have := hrec.2.2 stmts p2 hok
          omega

theorem parseBlock_bounds (ts : List Token) (fuel pos : Nat)
    (hgood : goodTokens ts) (hpos : pos < ts.length) :
    (parseBlock ts fuel pos ≠ .error .oob) ∧
    (ts.length ≤ fuel + pos → parseBlock ts fuel pos ≠ .error .nofuel) ∧
    (∀ stmts p2, parseBlock ts fuel pos = .ok (stmts, p2) →
      pos < p2 ∧ p2 < ts.length) := by
  unfold parseBlock
  cases h1 : consume ts pos ["LBRACE"] with
  | error e =>
    dsimp only
    have hce := consume_errOk ts pos ["LBRACE"] hpos
    rw [h1] at hce
    have hq := errOk_error hce
    exact ⟨except_error_ne hq.1, fun _ => except_error_ne hq.2, fun stmts p2 hok => nomatch hok⟩
  | ok pr1 =>
    obtain ⟨t1, p1⟩ := pr1
    dsimp only
    obtain ⟨ha1, ha2⟩ := consume_lit_next ts pos ("LBRACE") t1 p1 hgood
      (by decide) (by decide) h1
    have hbl := parseBlockLoop_bounds fuel ts p1 [] hgood ha2
    cases hloop : parseBlockLoop ts fuel p1 [] with
    | error e =>
      dsimp only
      refine ⟨?_, ?_, fun stmts p2 hok => nomatch hok⟩
      · intro hx
        simp only [Except.error.injEq] at hx
        exact hbl.1 (by rw [hloop, hx])
      · intro hf hx
        simp only [Except.error.injEq] at hx
        exact hbl.2.1 (by omega) (by rw [hloop, hx])
    | ok pr2 =>
      obtain ⟨stmts2, p2a⟩ := pr2
      dsimp only
      obtain ⟨hb1, hb2⟩ := hbl.2.2 stmts2 p2a hloop
      cases h3 : consume ts p2a ["RBRACE"] with
      | error e =>
        dsimp only
        have hce := consume_errOk ts p2a ["RBRACE"] hb2
        rw [h3] at hce
        have hq := errOk_error hce
        exact ⟨except_error_ne hq.1, fun _ => except_error_ne hq.2, fun stmts p2 hok => nomatch hok⟩
      | ok pr3 =>
        obtain ⟨t3, p3⟩ := pr3
        dsimp only
        obtain ⟨hc1, hc2⟩ := consume_lit_next ts p2a ("RBRACE") t3 p3 hgood
          (by decide) (by decide) h3
        refine ⟨by simp, fun _ => by simp, ?_⟩
        intro stmts p2 hok
        simp only [Except.ok.injEq, Prod.mk.injEq] at hok
        obtain ⟨_, hpp⟩ := hok
        subst hpp
        omega

theorem parseFunction_bounds (ts : List Token) (fuel pos : Nat)
    (hgood : goodTokens ts) (hpos : pos < ts.length) :
    (parseFunction ts fuel pos ≠ .error .oob) ∧
    (ts.length ≤ fuel + pos + 1 → parseFunction ts fuel pos ≠ .error .nofuel) ∧
    (∀ nd p2, parseFunction ts fuel pos = .ok (nd, p2) →
      pos < p2 ∧ p2 < ts.length) := by
  unfold parseFunction
  cases h1 : consume ts pos ["ID"] with
  | error e =>
    dsimp only
    have hce := consume_errOk ts pos ["ID"] hpos
    rw [h1] at hce
    have hq := errOk_error hce
    exact ⟨except_error_ne hq.1, fun _ => except_error_ne hq.2, fun nd p2 hok => nomatch hok⟩
  | ok pr1 =>
    obtain ⟨rt, p1⟩ := pr1
    dsimp only
    obtain ⟨ha1, ha2⟩ := consume_lit_next ts pos ("ID") rt p1 hgood
      (by decide) (by decide) h1
    cases h2 : consume ts p1 ["ID"] with
    | error e =>
      dsimp only
      have hce := consume_errOk ts p1 ["ID"] ha2
      rw [h2] at hce
      have hq := errOk_error hce
      exact ⟨except_error_ne hq.1, fun _ => except_error_ne hq.2, fun nd p2 hok => nomatch hok⟩
    | ok pr2 =>
      obtain ⟨nm, p2a⟩ := pr2
      dsimp only
      obtain ⟨hb1, hb2⟩ := consume_lit_next ts p1 ("ID") nm p2a hgood
        (by decide) (by decide) h2
      cases h3 : consume ts p2a ["LPAREN"] with
      | error e =>
        dsimp only
        have hce := consume_errOk ts p2a ["LPAREN"] hb2
        rw [h3] at hce
        have hq := errOk_error hce
        exact ⟨except_error_ne hq.1, fun _ => except_error_ne hq.2, fun nd p2 hok => nomatch hok⟩
      | ok pr3 =>
        obtain ⟨t3, p3⟩ := pr3
        dsimp only
        obtain ⟨hc1, hc2⟩ := consume_lit_next ts p2a ("LPAREN") t3 p3 hgood
          (by decide) (by decide) h3
        have hps := parseParams_bounds ts fuel p3 hgood hc2
        cases hpp : parseParams ts fuel p3 with
        | error e =>
          dsimp only
          refine ⟨?_, ?_, fun nd p2 hok => nomatch hok⟩
          · intro hx
            simp only [Except.error.injEq] at hx
            exact hps.1 (by rw [hpp, hx])
          · intro hf hx
            simp only [Except.error.injEq] at hx
            exact hps.2.1 (by omega) (by rw [hpp, hx])
        | ok pr4 =>
          obtain ⟨ps, p4⟩ := pr4
          dsimp only
          obtain ⟨hd1, hd2⟩ := hps.2.2 ps p4 hpp
          cases h5 : consume ts p4 ["RPAREN"] with
          | error e =>
            dsimp only
            have hce := consume_errOk ts p4 ["RPAREN"] hd2
            rw [h5] at hce
            have hq := errOk_error hce
            exact ⟨except_error_ne hq.1, fun _ => except_error_ne hq.2, fun nd p2 hok => nomatch hok⟩
          | ok pr5 =>
            obtain ⟨t5, p5⟩ := pr5
            dsimp only
            obtain ⟨he1, he2⟩ := consume_lit_next ts p4 ("RPAREN") t5 p5 hgood
              (by decide) (by decide) h5
            have hbk := parseBlock_bounds ts fuel p5 hgood he2
            cases hblk : parseBlock ts fuel p5 with
            | error e =>
              dsimp only
              refine ⟨?_, ?_, fun nd p2 hok => nomatch hok⟩
              · intro hx
                simp only [Except.error.injEq] at hx
                exact hbk.1 (by rw [hblk, hx])
              · intro hf hx
                simp only [Except.error.injEq] at hx
                exact hbk.2.1 (by omega) (by rw [hblk, hx])
            | ok pr6 =>
              obtain ⟨body, p6⟩ := pr6
              dsimp only
              obtain ⟨hf1, hf2⟩ := hbk.2.2 body p6 hblk
              refine ⟨by simp, fun _ => by simp, ?_⟩
              intro nd p2 hok
              simp only [Except.ok.injEq, Prod.mk.injEq] at hok
              obtain ⟨_, hpp2⟩ := hok
              subst hpp2
              omega

theorem parseClass_bounds (ts : List Token) (fuel pos : Nat)
    (hgood : goodTokens ts) (hpos : pos < ts.length) :
    (parseClass ts fuel pos ≠ .error .oob) ∧
    (ts.length ≤ fuel + pos + 1 → parseClass ts fuel pos ≠ .error .nofuel) ∧
    (∀ nd p2, parseClass ts fuel pos = .ok (nd, p2) →
      pos < p2 ∧ p2 < ts.length) := by
  unfold parseClass
  cases h1 : consume ts pos ["ID"] with
  | error e =>
    dsimp only
    have hce := consume_errOk ts pos ["ID"] hpos
    rw [h1] at hce
    have hq := errOk_error hce
    exact ⟨except_error_ne hq.1, fun _ => except_error_ne hq.2, fun nd p2 hok => nomatch hok⟩
  | ok pr1 =>
    obtain ⟨kw, p1⟩ := pr1
    dsimp only
    obtain ⟨ha1, ha2⟩ := consume_lit_next ts pos ("ID") kw p1 hgood
      (by decide) (by decide) h1
    cases h2 : consume ts p1 ["ID"] with
    | error e =>
      dsimp only
      have hce := consume_errOk ts p1 ["ID"] ha2
      rw [h2] at hce
      have hq := errOk_error hce
      exact ⟨except_error_ne hq.1, fun _ => except_error_ne hq.2, fun nd p2 hok => nomatch hok⟩
    | ok pr2 =>
      obtain ⟨nm, p2a⟩ := pr2
      dsimp only
      obtain ⟨hb1, hb2⟩ := consume_lit_next ts p1 ("ID") nm p2a hgood
        (by decide) (by decide) h2
      obtain ⟨cur, hgt3, hget3⟩ := getTok_ok ts p2a hb2
      rw [hgt3]
      dsimp only
      by_cases hco : cur.type = "COLON"
      case pos =>
        rw [if_pos hco]
        cases h3 : consume ts p2a ["COLON"] with
        | error e =>
          dsimp only
          have hce := consume_errOk ts p2a ["COLON"] hb2
          rw [h3] at hce
          have hq := errOk_error hce
          exact ⟨except_error_ne hq.1, fun _ => except_error_ne hq.2, fun nd p2 hok => nomatch hok⟩
        | ok pr3 =>
          obtain ⟨t3, p3⟩ := pr3
          dsimp only
          obtain ⟨hc1, hc2⟩ := consume_lit_next ts p2a ("COLON") t3 p3 hgood
            (by decide) (by decide) h3
          cases h4 : consume ts p3 ["ID"] with
          | error e =>
            dsimp only
            have hce := consume_errOk ts p3 ["ID"] hc2
            rw [h4] at hce
            have hq := errOk_error hce
            exact ⟨except_error_ne hq.1, fun _ => except_error_ne hq.2, fun nd p2 hok => nomatch hok⟩
          | ok pr4 =>
            obtain ⟨par, p4⟩ := pr4
            dsimp only
            obtain ⟨hd1, hd2⟩ := consume_lit_next ts p3 ("ID") par p4 hgood
              (by decide) (by decide) h4
            have hbk := parseBlock_bounds ts fuel p4 hgood hd2
            cases hblk : parseBlock ts fuel p4 with
            | error e =>
              dsimp only
              refine ⟨?_, ?_, fun nd p2 hok => nomatch hok⟩
              · intro hx
                simp only [Except.error.injEq] at hx
                exact hbk.1 (by rw [hblk, hx])
              · intro hf hx
                simp only [Except.error.injEq] at hx
                exact hbk.2.1 (by omega) (by rw [hblk, hx])
            | ok pr5 =>
              obtain ⟨mems, p5⟩ := pr5
              dsimp only
              obtain ⟨he1, he2⟩ := hbk.2.2 mems p5 hblk
              refine ⟨by simp, fun _ => by simp, ?_⟩
              intro nd p2 hok
              simp only [Except.ok.injEq, Prod.mk.injEq] at hok
              obtain ⟨_, hpp2⟩ := hok
              subst hpp2
              omega
      case neg =>
        rw [if_neg hco]
        have hbk := parseBlock_bounds ts fuel p2a hgood hb2
        cases hblk : parseBlock ts fuel p2a with
        | error e =>
          dsimp only
          refine ⟨?_, ?_, fun nd p2 hok => nomatch hok⟩
          · intro hx
            simp only [Except.error.injEq] at hx
            exact hbk.1 (by rw [hblk, hx])
          · intro hf hx
            simp only [Except.error.injEq] at hx
            exact hbk.2.1 (by omega) (by rw [hblk, hx])
        | ok pr3 =>
          obtain ⟨mems, p3⟩ := pr3
          dsimp only
          obtain ⟨hc1, hc2⟩ := hbk.2.2 mems p3 hblk
          refine ⟨by simp, fun _ => by simp, ?_⟩
          intro nd p2 hok
          simp only [Except.ok.injEq, Prod.mk.injEq] at hok
          obtain ⟨_, hpp2⟩ := hok
          subst hpp2
          omega

theorem parseProgramLoop_bounds :
    ∀ fuel ts pos acc, goodTokens ts → pos < ts.length →
      (parseProgramLoop ts fuel pos acc ≠ .error .oob) ∧
      (ts.length ≤ fuel + pos → parseProgramLoop ts fuel pos acc ≠ .error .nofuel) ∧
      (∀ ds p2, parseProgramLoop ts fuel pos acc = .ok (ds, p2) →
        pos ≤ p2 ∧ p2 < ts.length) := by
  intro fuel
  induction fuel with
  | zero =>
    intro ts pos acc hgood hpos
    refine ⟨by simp [parseProgramLoop], ?_, by simp [parseProgramLoop]⟩
    intro hf
    exact absurd hf (by omega)
  | succ f ih =>
    intro ts pos acc hgood hpos
    unfold parseProgramLoop
    obtain ⟨cur, hgt, hget⟩ := getTok_ok ts pos hpos
    rw [hgt]
    dsimp only
    by_cases heof : cur.type = "EOF"
    case pos =>
      rw [if_pos heof]
      refine ⟨by simp, fun _ => by simp, ?_⟩
      intro ds p2 hok
      simp only [Except.ok.injEq, Prod.mk.injEq] at hok
      obtain ⟨_, hpp⟩ := hok
      subst hpp
      exact ⟨Nat.le_refl _, hpos⟩
    case neg =>
      rw [if_neg heof]
      by_cases hcls : cur.value = "class"
      case pos =>
        rw [if_pos hcls]
        have hcl := parseClass_bounds ts f pos hgood hpos
        cases hd : parseClass ts f pos with
        | error e =>
          dsimp only
          refine ⟨?_, ?_, fun ds p2 hok => nomatch hok⟩
          · intro hx
            simp only [Except.error.injEq] at hx
            exact hcl.1 (by rw [hd, hx])
          · intro hf hx
            simp only [Except.error.injEq] at hx
            exact hcl.2.1 (by omega) (by rw [hd, hx])
        | ok pr =>
          obtain ⟨d, p1⟩ := pr
          dsimp only
          obtain ⟨hb1, hb2⟩ := hcl.2.2 d p1 hd
          have hrec := ih ts p1 (acc ++ [d]) hgood hb2
          refine ⟨hrec.1, ?_, ?_⟩
          · intro hf
            exact hrec.2.1 (by omega)
          · intro ds p2 hok
            have := hrec.2.2 ds p2 hok
            omega
      case neg =>
        rw [if_neg hcls]
        have hfn := parseFunction_bounds ts f pos hgood hpos
        cases hd : parseFunction ts f pos with
        | error e =>
          dsimp only
          refine ⟨?_, ?_, fun ds p2 hok => nomatch hok⟩
          · intro hx
            simp only [Except.error.injEq] at hx
            exact hfn.1 (by rw [hd, hx])
          · intro hf hx
            simp only [Except.error.injEq] at hx
            exact hfn.2.1 (by omega) (by rw [hd, hx])
        | ok pr =>
          obtain ⟨d, p1⟩ := pr
          dsimp only
          obtain ⟨hb1, hb2⟩ := hfn.2.2 d p1 hd
          have hrec := ih ts p1 (acc ++ [d]) hgood hb2
          refine ⟨hrec.1, ?_, ?_⟩
          · intro hf
            exact hrec.2.1 (by omega)
          · intro ds p2 hok
            have := hrec.2.2 ds p2 hok
            omega

/-!  ## The claims -/

/-- C1: the spec's class field/method split property.  The claim is right
about the intended behavior (`emitClass` has a method-emission branch and
the AST comments call class members "variables and functions"), but the
pipeline aborts at the very first token: the misindexed group scan labels
every identifier match `LPAREN`, so the token for the word `class` has type
`LPAREN` (and value `class`).  `parse` still dispatches on the literal
value `class` into `parseClass`, whose first `consume("ID")` rejects that
token — the run panics with `Expected [ID] but got LPAREN (class)` and
never emits `Foo` or `Foo_get`.  (Even under the intended labels the parse
would fault, since the two-token lookahead sends `int get` into the
`VarDecl` production.)  This theorem evaluates the pipeline at the claim's
own input and exhibits the fault. -/
theorem claim_C1_eval :
    parseSource ("class Foo : Bar \x7b int x; int get() \x7b x; \x7d \x7d") =
      .error (.parse (.fault ["ID"] ⟨"LPAREN", "class", 1, 0⟩)) := by
  rfl

/-- C2 counterexample: on the token sequence the program's own tokenize
produces for `int add(int a, int b) { return a; }`, parse does not return a
Program at all — it faults at the very first token with
`Expected [ID] but got LPAREN (int)`, because the misindexed group scan
labels every identifier match `LPAREN`; so no FunctionDecl (and no body
statement) is ever built, contradicting the claim. -/
theorem claim_C2_counterexample :
    parseSource ("int add(int a, int b) \x7b return a; \x7d") =
      .error (.parse (.fault ["ID"] ⟨"LPAREN", "int", 1, 0⟩)) := by
  rfl

/-- C2 (amended): for the token sequence of
`int add(int a, int b) { return a; }` as actually produced by tokenize,
the first token is `LPAREN`-typed with value `int` (the shifted group scan
labels identifier matches `LPAREN`), and parse aborts immediately:
`parseFunction` begins with `consume("ID")`, which rejects that first
token, so the result is the expectation fault `Expected [ID] but got
LPAREN (int)` at line 1, column 0 — no declaration is produced. -/
theorem claim_C2 :
    ∃ ts, tokenize ("int add(int a, int b) \x7b return a; \x7d") = .ok ts ∧
      ts.head? = some ⟨"LPAREN", "int", 1, 0⟩ ∧
      parseTokens ts = .error (.fault ["ID"] ⟨"LPAREN", "int", 1, 0⟩) := by
  exact ⟨_, rfl, rfl, rfl⟩

/-- C3 counterexample: already for the empty Program, tokenizing the
generated output yields a LexError — at the first newline of the include
prelude (value `"\n"`, line 1, column 18), because the misindexed group
scan labels NEWLINE matches `MISMATCH` and every newline character
therefore aborts lexing. -/
theorem claim_C3_counterexample :
    tokenize (generate ⟨[]⟩) = .error ⟨"\n", 1, 18⟩ := by
  rfl

/-- C3 (amended): for every Program AST, passing the Code Generator's
output text back through tokenize always yields a LexError, at the newline
ending the first emitted line `#include <stdio.h>` (line 1, column 18).
The earlier oddball characters `#` and `.` do NOT abort: they are catch-all
matches, whose group index the classification loop never reads, so they
become tokens with empty type; the newline is the first match whose
computed type is `MISMATCH`, and there the lexer stops. -/
theorem claim_C3 (p : Program) :
    tokenize (generate p) = .error ⟨"\n", 1, 18⟩ := by
  obtain ⟨t, ht⟩ := generate_prelude p
  rw [ht]
  unfold tokenize
  rw [String.data_append]
  have hinc : includesText.data =
      '#' :: 'i' :: 'n' :: 'c' :: 'l' :: 'u' :: 'd' :: 'e' :: ' ' :: '<' ::
      's' :: 't' :: 'd' :: 'i' :: 'o' :: '.' :: 'h' :: '>' :: '\n' ::
      ("#include <stdlib.h>\n#include <string.h>\n\n").data := rfl
  rw [hinc]
  simp only [List.cons_append]
  rw [tokenizeL_eq, matchesOf_include_prefix]
  exact processMatches_error
    [("MISMATCH", ['#']), ("ID", ['i', 'n', 'c', 'l', 'u', 'd', 'e']),
     ("SKIP", [' ']), ("OP", ['<']), ("ID", ['s', 't', 'd', 'i', 'o']),
     ("MISMATCH", ['.']), ("ID", ['h']), ("OP", ['>'])]
    "NEWLINE" ['\n'] _ 1 0 (by decide) (by decide)

/-- C4 counterexample: on the input `a,b` tokenize succeeds, but the match
the program discards is the COMMA match (its computed type is `SKIP`), not
a whitespace run or a newline.  The input contains no whitespace and no
newline character at all, so the claim's reconstruction — token texts with
the discarded whitespace/newline runs re-inserted — is just `ab`, which is
not the input. -/
theorem claim_C4_counterexample :
    tokenize ("a,b") =
      .ok [⟨"LPAREN", "a", 1, 0⟩, ⟨"LPAREN", "b", 1, 2⟩, ⟨"EOF", "", 1, 0⟩] ∧
    (("a,b") : String).data.all (fun c => !(isSpaceTab c) && !(c == '\n')) = true ∧
    String.join (([⟨"LPAREN", "a", 1, 0⟩, ⟨"LPAREN", "b", 1, 2⟩,
      ⟨"EOF", "", 1, 0⟩] : List Token).dropLast.map Token.value) ≠ ("a,b") := by
  refine ⟨rfl, by decide, by decide⟩

/-- C4 (amended): when tokenize succeeds, the combined regex's
non-overlapping matches do partition the whole input (their concatenation
is the input), and the produced tokens (excluding the synthetic EOF) are
exactly the kept matches in order — but the discarded matches are the
COMMA matches (computed type `SKIP`) and the SEMICOLON matches (computed
type `NEWLINE`), not the whitespace runs and newlines: whitespace runs
become tokens with empty type, and a newline match aborts lexing.
Re-inserting the discarded comma/semicolon matches at their original
positions reproduces the input. -/
theorem claim_C4 (s : String) (ts : List Token) (h : tokenize s = .ok ts) :
    flatLex (matchesOf s.data) = s.data ∧
    ts.dropLast.map Token.value =
      ((matchesOf s.data).filter keepMatch).map (fun m => String.mk m.2) := by
  obtain ⟨front, h1, h2, h3, h4⟩ := tokenizeL_ok_shape s.data ts h
  constructor
  · exact flatLex_matchesOf s.data.length s.data (Nat.le_refl _)
  · rw [h1, dropLast_concat_token]
    exact h3

/-- C4 witness at the input `"ab 12"` (the space is kept, as a token with
empty type). -/
theorem claim_C4_witness :
    flatLex (matchesOf (("ab 12") : String).data) = (("ab 12") : String).data ∧
    ([⟨"LPAREN", "ab", 1, 0⟩, ⟨"", " ", 1, 2⟩, ⟨"NUMBER", "12", 1, 3⟩,
      ⟨"EOF", "", 1, 0⟩] : List Token).dropLast.map Token.value =
      ((matchesOf (("ab 12") : String).data).filter keepMatch).map (fun m => String.mk m.2) :=
  claim_C4 ("ab 12")
    [⟨"LPAREN", "ab", 1, 0⟩, ⟨"", " ", 1, 2⟩, ⟨"NUMBER", "12", 1, 3⟩, ⟨"EOF", "", 1, 0⟩] rfl

/-- C5 counterexample: the input `a @` contains `@`, a character matched
only by the MISMATCH catch-all, yet tokenize succeeds — the catch-all's
group index is never read by the classification loop, so `@` (and the
whitespace run) becomes a token with empty type.  Conversely, the input
consisting of a single newline — a character with its own NEWLINE category,
not a catch-all match — makes tokenize fail.  Both halves contradict the
claim's "fails exactly when a character is matched by the catch-all". -/
theorem claim_C5_counterexample :
    tokenize ("a @") = .ok [⟨"LPAREN", "a", 1, 0⟩, ⟨"", " ", 1, 1⟩,
      ⟨"", "@", 1, 2⟩, ⟨"EOF", "", 1, 0⟩] ∧
    tokenize (String.mk ['\n']) = .error ⟨"\n", 1, 0⟩ := by
  exact ⟨rfl, rfl⟩

/-- C5 (amended): tokenize fails if and only if some match is a NEWLINE
match (a newline character outside a string literal) — the misindexed group
scan gives exactly those matches the computed type `MISMATCH`.  It aborts
at the first such match with no token list, and the error carries the
offending text (always the newline itself), the 1-based line (1 plus the
preceding matches that took the line-increment branch, which are the
SEMICOLON matches) and the 0-based column (the match's absolute offset
minus the offset of the most recent line start, as tracked by the
SEMICOLON matches).  Catch-all matches never abort: they become tokens
with empty type. -/
theorem claim_C5 :
    (∀ (s : String) pre v rest,
        matchesOf s.data = pre ++ ("NEWLINE", v) :: rest →
        (∀ m ∈ pre, m.1 ≠ "NEWLINE") →
        tokenize s = .error
          ⟨String.mk v, 1 + countLineIncr pre, sumLen pre - lineStartOff pre⟩) ∧
    (∀ (s : String), (∀ m ∈ matchesOf s.data, m.1 ≠ "NEWLINE") →
      ∃ ts, tokenize s = .ok ts) := by
  constructor
  · intro s pre v rest hsplit hpre
    unfold tokenize
    rw [tokenizeL_eq, hsplit,
      processMatches_error pre "NEWLINE" v rest 1 0 (by decide)
        (fun m hm hx => hpre m hm (groupLabel_mismatch hx)),
      lineAfter_eq, colAfter_zero]
  · intro s hok
    unfold tokenize
    rw [tokenizeL_eq]
    exact processMatches_ok_exists (matchesOf s.data) 1 0
      (fun m hm hx => hok m hm (groupLabel_mismatch hx))

/-- C5 witness: the input `a` newline `b` faults at the newline match,
line 1, column 1. -/
theorem claim_C5_witness :
    tokenize ("a\nb") = .error ⟨"\n", 1, 1⟩ :=
  claim_C5.1 ("a\nb") [("ID", ['a'])] ['\n'] [("ID", ['b'])] (by decide) (by decide)

/-- C6 counterexample: the input `a;b` contains no newline character at
all, yet its EOF token reports line 2 — the misindexed group scan gives
SEMICOLON matches the computed type `NEWLINE`, so it is semicolons, not
newlines, that increment the line counter (and the semicolon is discarded
rather than emitted).  A real newline would instead abort lexing. -/
theorem claim_C6_counterexample :
    tokenize ("a;b") = .ok [⟨"LPAREN", "a", 1, 0⟩, ⟨"LPAREN", "b", 2, 0⟩,
      ⟨"EOF", "", 2, 0⟩] ∧
    (("a;b") : String).data.count '\n' = 0 ∧ (2 : Nat) ≠ 1 + 0 := by
  exact ⟨rfl, by decide, by decide⟩

/-- C6 (amended): on success the token sequence contains no NEWLINE, SKIP
or MISMATCH token (whitespace runs and catch-all characters do appear, but
as tokens with empty type); the line counter is incremented and the column
origin reset by the SEMICOLON matches (whose computed type is `NEWLINE`),
never by newline characters — a newline outside a string literal aborts
lexing instead; and the sequence ends with exactly one synthetic EOF token
at column 0 whose line is 1 plus the number of SEMICOLON matches. -/
theorem claim_C6 (s : String) (ts : List Token) (h : tokenize s = .ok ts) :
    (∀ t ∈ ts, t.type ≠ "NEWLINE" ∧ t.type ≠ "SKIP" ∧ t.type ≠ "MISMATCH") ∧
    ∃ front, ts = front ++ [⟨"EOF", "", 1 + countLineIncr (matchesOf s.data), 0⟩] ∧
      ∀ t ∈ front, t.type ≠ "EOF" := by
  obtain ⟨front, h1, h2, h3, h4⟩ := tokenizeL_ok_shape s.data ts h
  constructor
  · intro t ht
    rw [h1] at ht
    rcases List.mem_append.mp ht with hf | he
    · obtain ⟨_, hs1, hs2, hs3⟩ := tokenizeL_front_types_ne s.data ts front _ h h1 h2 t hf
      exact ⟨hs2, hs1, hs3⟩
    · rw [List.mem_singleton.mp he]
      refine ⟨?_, ?_, ?_⟩
      · show ("EOF" : String) ≠ "NEWLINE"
        decide
      · show ("EOF" : String) ≠ "SKIP"
        decide
      · show ("EOF" : String) ≠ "MISMATCH"
        decide
  · refine ⟨front, h1, ?_⟩
    intro t ht
    exact (tokenizeL_front_types_ne s.data ts front _ h h1 h2 t ht).1

/-- C6 witness at the input `a;b`: no newline in the input, EOF on line 2
after the discarded semicolon match. -/
theorem claim_C6_witness :
    ((⟨"LPAREN", "a", 1, 0⟩ : Token).type ≠ "NEWLINE" ∧
      (⟨"LPAREN", "a", 1, 0⟩ : Token).type ≠ "SKIP" ∧
      (⟨"LPAREN", "a", 1, 0⟩ : Token).type ≠ "MISMATCH") ∧
    ∃ front, ([⟨"LPAREN", "a", 1, 0⟩, ⟨"LPAREN", "b", 2, 0⟩,
        ⟨"EOF", "", 2, 0⟩] : List Token) =
      front ++ [⟨"EOF", "", 2, 0⟩] ∧ ∀ t ∈ front, t.type ≠ "EOF" := by
  have h := claim_C6 ("a;b")
    [⟨"LPAREN", "a", 1, 0⟩, ⟨"LPAREN", "b", 2, 0⟩, ⟨"EOF", "", 2, 0⟩] rfl
  exact ⟨h.1 ⟨"LPAREN", "a", 1, 0⟩ (by simp), h.2⟩

/-- C7 counterexample: a top-level declaration outside the known shapes
produces no placeholder comment at all — `generate`'s declaration switch
has no default case, so the node is skipped silently and the output is
exactly the includes prelude. -/
theorem claim_C7_counterexample :
    generate ⟨[Node.other]⟩ = includesText ∧
    subOccurs (("// Unknown statement") : String).data ((generate ⟨[Node.other]⟩)).data = false := by
  exact ⟨rfl, rfl⟩

/-- C7 (amended): generate is total — it returns output text for every
Program value.  A node outside the known statement shapes in statement
position emits the textual placeholder comment rather than aborting, while
a top-level declaration outside the known declaration shapes is skipped
silently and contributes no output (and no placeholder). -/
theorem claim_C7 :
    (∀ (code ind : String) (st : Node), isFieldOrStmt st = false →
        emitStatementCG ⟨code, ind⟩ st = ⟨code ++ ind ++ "// Unknown statement\n", ind⟩) ∧
    (∀ ds, generate ⟨Node.other :: ds⟩ = generate ⟨ds⟩) := by
  constructor
  · intro code ind st hst
    cases st with
    | varDecl ty nm de => simp [isFieldOrStmt] at hst
    | stmt e => simp [isFieldOrStmt] at hst
    | functionDecl rt nm ps body => rfl
    | classDecl nm par mems => rfl
    | other => rfl
  · intro ds
    rfl

/-- C7 witness: the placeholder equation applied at a concrete generator
state and the unknown node, plus the silently-skipped declaration. -/
theorem claim_C7_witness :
    emitStatementCG ⟨"", "    "⟩ Node.other = ⟨"" ++ "    " ++ "// Unknown statement\n", "    "⟩ ∧
    generate ⟨[Node.other]⟩ = generate ⟨[]⟩ :=
  ⟨claim_C7.1 ("") "    " Node.other rfl, claim_C7.2 []⟩

/-- C8: on every token sequence, every Program returned by parse has only
VarDecl or expression-Statement members in each of its class declarations
(class bodies go through `parseBlock`/`parseStatement`, which only build
those two shapes), so the method-emission branch of `emitClass` is
unreachable on parser-produced ASTs. -/
theorem claim_C8 (ts : List Token) (prog : Program)
    (h : parseTokens ts = .ok prog) : classMembersOk prog = true := by
  unfold parseTokens at h
  split at h
  · rename_i ds p heq
    simp only [Except.ok.injEq] at h
    rw [← h]
    unfold classMembersOk
    rw [List.all_eq_true]
    exact fun d hd => parseProgramLoop_shape (ts.length + 1) ts 0 [] ds p (by simp) heq d hd
  · simp at h

/-- C8 witness on the token sequence of `class A { int x; }`. -/
theorem claim_C8_witness :
    classMembersOk ⟨[Node.classDecl ("A") "" [Node.varDecl ("int") "x" ⟨""⟩]]⟩ = true :=
  claim_C8
    [⟨"ID", "class", 1, 0⟩, ⟨"ID", "A", 1, 6⟩, ⟨"LBRACE", "\x7b", 1, 8⟩,
     ⟨"ID", "int", 1, 10⟩, ⟨"ID", "x", 1, 14⟩, ⟨"SEMICOLON", ";", 1, 15⟩,
     ⟨"RBRACE", "\x7d", 1, 17⟩, ⟨"EOF", "", 1, 0⟩]
    ⟨[Node.classDecl ("A") "" [Node.varDecl ("int") "x" ⟨""⟩]]⟩ rfl

/-- C9 counterexample: the two-character input consisting of `{` and `}`
lexes successfully, and its token sequence contains a token of type
`LANGLE` and a token of type `RANGLE` — the misindexed group scan labels
LBRACE matches `LANGLE` and RBRACE matches `RANGLE` — contradicting the
claim that such tokens can never occur. -/
theorem claim_C9_counterexample :
    tokenize ("\x7b\x7d") = .ok [⟨"LANGLE", "\x7b", 1, 0⟩, ⟨"RANGLE", "\x7d", 1, 1⟩,
      ⟨"EOF", "", 1, 0⟩] := by
  rfl

/-- C9 (amended): the claim's regex-level reasoning is sound — the OP
category is declared before the angle-bracket categories, ties go to the
earlier alternative, so `<` and `>` always win as OP matches and no
LANGLE- or RANGLE-category match ever occurs.  But the conclusion about
tokens fails: the misindexed group scan labels LBRACE matches `LANGLE` and
RBRACE matches `RANGLE`, so LANGLE/RANGLE-typed tokens do occur — every
such token is a brace: a LANGLE-typed token always has value `{` and a
RANGLE-typed token always has value `}`. -/
theorem claim_C9 :
    (∀ cs, nextMatch '<' cs = ("OP", ['<'], cs)) ∧
    (∀ cs, nextMatch '>' cs = ("OP", ['>'], cs)) ∧
    (∀ (s : String) (ts : List Token), tokenize s = .ok ts →
        ∀ t ∈ ts, (t.type = "LANGLE" → t.value = "\x7b") ∧
          (t.type = "RANGLE" → t.value = "\x7d")) := by
  refine ⟨?_, ?_, ?_⟩
  · intro cs
    unfold nextMatch
    rw [if_neg (by decide), if_neg (by decide), if_neg (by decide),
        if_pos (by decide : opChars.contains '<' = true)]
  · intro cs
    unfold nextMatch
    rw [if_neg (by decide), if_neg (by decide), if_neg (by decide),
        if_pos (by decide : opChars.contains '>' = true)]
  · intro s ts h t ht
    obtain ⟨front, h1, h2, h3, h4⟩ := tokenizeL_ok_shape s.data ts h
    rw [h1] at ht
    rcases List.mem_append.mp ht with hf | he
    · obtain ⟨m, hm, hmt, hmv⟩ := tokenizeL_front_types s.data ts front _ h h1 h2 h3 t hf
      have hmem : m ∈ matchesOf s.data := List.mem_of_mem_filter hm
      have hbr := matchesOf_brace s.data.length s.data (Nat.le_refl _) m hmem
      constructor
      · intro hx
        rw [hmt] at hx
        rw [hmv, hbr.1 (groupLabel_langle hx)]
      · intro hx
        rw [hmt] at hx
        rw [hmv, hbr.2 (groupLabel_rangle hx)]
    · rw [List.mem_singleton.mp he]
      constructor
      · intro hx
        exact absurd (show ("EOF" : String) = "LANGLE" from hx) (by decide)
      · intro hx
        exact absurd (show ("EOF" : String) = "RANGLE" from hx) (by decide)

/-- C9 witness: the LANGLE-typed token of the brace input has value `{`. -/
theorem claim_C9_witness :
    (⟨"LANGLE", "\x7b", 1, 0⟩ : Token).value = "\x7b" :=
  (claim_C9.2.2 ("\x7b\x7d")
    [⟨"LANGLE", "\x7b", 1, 0⟩, ⟨"RANGLE", "\x7d", 1, 1⟩, ⟨"EOF", "", 1, 0⟩]
    rfl ⟨"LANGLE", "\x7b", 1, 0⟩ (by simp)).1 rfl

/-- C10: on every token sequence produced by a successful tokenize, parse
never reads a token position outside the sequence: every `current()`
access, every `consume`, and the two-token lookahead at `pos+1` (evaluated
only when the current token is an ID, which is never the final EOF) stay in
bounds, so the only abort is the explicit expectation-mismatch fault — the
result is never the `oob` error modelling an out-of-range index, and never
the `nofuel` artifact of the embedding's recursion bound. -/
theorem claim_C10 (s : String) (ts : List Token) (h : tokenize s = .ok ts) :
    parseTokens ts ≠ .error .oob ∧ parseTokens ts ≠ .error .nofuel := by
  have hgood := tokenizeL_goodTokens s.data ts h
  have hpos := good_len_pos ts hgood
  have hb := parseProgramLoop_bounds (ts.length + 1) ts 0 [] hgood hpos
  unfold parseTokens
  cases hl : parseProgramLoop ts (ts.length + 1) 0 [] with
  | ok pr => exact ⟨by simp, by simp⟩
  | error e =>
    constructor
    · intro hx
      simp only [Except.error.injEq] at hx
      exact hb.1 (by rw [hl, hx])
    · intro hx
      simp only [Except.error.injEq] at hx
      exact hb.2.1 (by omega) (by rw [hl, hx])

/-- C10 witness: the token sequence of the input `1` (one NUMBER token plus
EOF); the parse faults with an expectation mismatch, not with an
out-of-range access. -/
theorem claim_C10_witness :
    parseTokens [⟨"NUMBER", "1", 1, 0⟩, ⟨"EOF", "", 1, 0⟩] ≠ .error .oob ∧
    parseTokens [⟨"NUMBER", "1", 1, 0⟩, ⟨"EOF", "", 1, 0⟩] ≠ .error .nofuel :=
  claim_C10 ("1") [⟨"NUMBER", "1", 1, 0⟩, ⟨"EOF", "", 1, 0⟩] rfl

end XSharp
